import Mathlib

/-!
Verification of the AlphaCard scraper core (`src/scraper/alphacard_scraper.py`)
against its natural-language specification.

The Python source is shallowly embedded over `List Char` / `String`:

* Python strings are `String` (a structure wrapping `List Char`); all scanning
  functions work on the underlying character list and are structurally
  recursive, so every definition is executable by the kernel (`decide` / `rfl`).
* The regular-expression operations the scraper uses are embedded as explicit
  character-level scanners that reproduce the CPython `re` semantics for the
  concrete patterns appearing in the source (leftmost, non-overlapping matches;
  on a failed match the scan advances one character; `re.sub(..., count=1)`
  replaces the first matching position).  Character classes `\w` and `\s` are
  modelled over ASCII, which covers every string the scraper itself introduces.
* Python floats are idealised as exact rationals (numerator/denominator
  pairs); `round` is modelled as round-half-to-even (CPython's rounding
  mode), and `str(float)` as the shortest fixed-point form (trailing zeros
  dropped, at least one digit after the decimal point), which agrees with
  CPython on the values reached in the claims.
* BeautifulSoup is the external document-query capability (spec §6): a parsed
  document is modelled by the record `Doc` holding the query results the
  scraper asks for, and the two places where the scraper re-parses one of its
  own computed strings with BeautifulSoup (`get_text`, `find('p')`) are
  modelled as explicit function parameters.
-/

namespace AlphaCard

/-! ## Character classes (ASCII models of Python's `str.lower`, `\s`, `\w`, `\d`) -/

/-- ASCII whitespace, the model of the regex class `\s` and of `str.strip()`. -/
def isWsC (c : Char) : Bool :=
  c == ' ' || c == '\t' || c == '\n' || c == '\r' || c == '\x0b' || c == '\x0c'

/-- Model of the regex class `\d`. -/
def isDigitC (c : Char) : Bool :=
  '0' ≤ c && c ≤ '9'

/-- ASCII model of the regex class `\w` (letters, digits, underscore). -/
def isWordC (c : Char) : Bool :=
  ('a' ≤ c && c ≤ 'z') || ('A' ≤ c && c ≤ 'Z') || isDigitC c || c == '_'

/-- The 26 upper-to-lower pairs of ASCII letters. -/
def lowerPairs : List (Char × Char) :=
  [('A','a'), ('B','b'), ('C','c'), ('D','d'), ('E','e'), ('F','f'), ('G','g'),
   ('H','h'), ('I','i'), ('J','j'), ('K','k'), ('L','l'), ('M','m'), ('N','n'),
   ('O','o'), ('P','p'), ('Q','q'), ('R','r'), ('S','s'), ('T','t'), ('U','u'),
   ('V','v'), ('W','w'), ('X','x'), ('Y','y'), ('Z','z')]

/-- ASCII model of Python's `str.lower()`, per character. -/
def pyLowerC (c : Char) : Char :=
  ((lowerPairs.find? (fun p => p.1 == c)).map (fun p => p.2)).getD c

/-- Model of Python's `str.lower()`. -/
def pyLowerStr (s : String) : String :=
  String.mk (s.data.map pyLowerC)

/-! ## List-level string primitives -/

/-- Does the pattern (first argument) occur as a prefix of the second list?
Model of anchored literal matching. -/
def startsWithL : List Char → List Char → Bool
  | [], _ => true
  | _ :: _, [] => false
  | p :: ps, c :: cs => p == c && startsWithL ps cs

/-- Does the pattern occur as a substring?  Model of Python's `in` operator
on strings and of an unanchored `re` literal search. -/
def containsSubL : List Char → List Char → Bool
  | p, [] => startsWithL p []
  | p, c :: rest => startsWithL p (c :: rest) || containsSubL p rest

/-- Model of Python `needle in hay` for strings. -/
def containsSubStr (hay needle : String) : Bool :=
  containsSubL needle.data hay.data

/-- Model of `hay.endswith(needle)`. -/
def endsWithL (s p : List Char) : Bool :=
  startsWithL p.reverse s.reverse

/-- Model of `s.strip()` (whitespace stripped from both ends). -/
def stripWsL (s : List Char) : List Char :=
  ((s.dropWhile isWsC).reverse.dropWhile isWsC).reverse

/-- Model of Python's `str.strip()` on `String`. -/
def pyStripWs (s : String) : String :=
  String.mk (stripWsL s.data)

/-- Model of `s.strip('/')`. -/
def stripSlashes (s : List Char) : List Char :=
  ((s.dropWhile (fun c => c == '/')).reverse.dropWhile (fun c => c == '/')).reverse

/-- Model of Python's `s.split('/')`: split at every slash, keeping empty
pieces; the empty string yields `[[]]`, exactly as `''.split('/') == ['']`. -/
def splitOnSlash : List Char → List (List Char)
  | [] => [[]]
  | c :: rest =>
    if c == '/' then [] :: splitOnSlash rest
    else
      match splitOnSlash rest with
      | [] => [[c]]
      | h :: t => (c :: h) :: t

/-- Model of `s.replace(old, new)` (all non-overlapping occurrences, one
left-to-right pass, replacements are not rescanned).  The first argument is
the number of input characters still to be copied verbatim because they
belong to an already-emitted replacement's source region. -/
def replaceAllGo (old new : List Char) : Nat → List Char → List Char
  | skip+1, _ :: rest => replaceAllGo old new skip rest
  | _, [] => []
  | 0, c :: rest =>
    if startsWithL old (c :: rest) then new ++ replaceAllGo old new (old.length - 1) rest
    else c :: replaceAllGo old new 0 rest

/-- Model of `s.replace(old, new)` on `String`. -/
def pyReplaceAll (s old new : String) : String :=
  String.mk (replaceAllGo old.data new.data 0 s.data)

/-- Model of `s.replace(old, new, 1)`: replace only the first occurrence. -/
def replaceFirstL (old new : List Char) : List Char → List Char
  | [] => []
  | c :: rest =>
    if startsWithL old (c :: rest) then new ++ List.drop (old.length - 1) rest
    else c :: replaceFirstL old new rest

/-- Model of `re.sub(r'\s+', e, s)` for a single replacement character `e`:
collapse every maximal whitespace run to one `e`.  The Boolean records
whether the previously consumed character was part of a whitespace run. -/
def collapseRunsGo (emit : Char) : Bool → List Char → List Char
  | _, [] => []
  | prev, c :: rest =>
    if isWsC c then
      (if prev then collapseRunsGo emit true rest else emit :: collapseRunsGo emit true rest)
    else c :: collapseRunsGo emit false rest

/-! ## URL Classifier (`is_printer_url`, source lines 75–91) -/

/-- Exclusion fragments, from the source. -/
def excludesList : List String :=
  ["/blog/", "/support/", "/software/", "/supplies/", "/ribbons/",
   ".pdf", ".jpg", "/compare/", "/category/", "/view-all", "/manufacturer"]

/-- Inclusion fragments, from the source. -/
def includesList : List String :=
  ["/id-card-printers/", "/printer/", "card-printer"]

/-- Embedding of `is_printer_url` (source lines 75–91). -/
def is_printer_url (url : String) : Bool :=
  if url = "" then false
  else
    let url_lower := pyLowerStr url
    if excludesList.any (fun ex => containsSubStr url_lower ex) then false
    else
      let has_printer_path := includesList.any (fun inc => containsSubStr url_lower inc)
      let url_parts := splitOnSlash (stripSlashes url.data)
      let is_specific_product :=
        decide (url_parts.length ≥ 3) && !(endsWithL url_lower.data "printers".data)
      has_printer_path && is_specific_product

/-- Modelled from the spec's words (for comparison with the code): the number
of NON-EMPTY segments of the URL path, i.e. of the '/'-stripped URL split on
'/'.  The code itself counts all segments, including empty ones. -/
def specNonEmptySegCount (url : String) : Nat :=
  ((splitOnSlash (stripSlashes url.data)).filter (fun seg => !seg.isEmpty)).length

/-- C4 counterexample: the URL "/id-card-printers//x/" contains no exclusion
fragment and is accepted by `is_printer_url`, yet its path has only two
non-empty segments — so acceptance does not imply "at least three non-empty
segments" as the claim states.  (The code counts all split pieces, empty ones
included.) -/
theorem is_printer_url_nonempty_segment_cex :
    excludesList.all
        (fun ex => !(containsSubStr (pyLowerStr "/id-card-printers//x/") ex)) = true
    ∧ is_printer_url "/id-card-printers//x/" = true
    ∧ specNonEmptySegCount "/id-card-printers//x/" = 2 := by
  decide

/-- C4 (amended): for every URL containing no exclusion fragment, the URL
Classifier accepts it exactly when the URL contains at least one inclusion
fragment, splitting the '/'-stripped URL on '/' yields at least three pieces
(pieces may be empty), and the lower-cased URL does not end with the literal
"printers". -/
theorem is_printer_url_accept_characterization (url : String)
    (hex : ∀ ex ∈ excludesList, containsSubStr (pyLowerStr url) ex = false) :
    is_printer_url url = true ↔
      (includesList.any (fun inc => containsSubStr (pyLowerStr url) inc) = true
        ∧ (splitOnSlash (stripSlashes url.data)).length ≥ 3
        ∧ endsWithL (pyLowerStr url).data "printers".data = false) := by
  by_cases h : url = ""
  · subst h
    decide
  · have hexb : excludesList.any (fun ex => containsSubStr (pyLowerStr url) ex) = false := by
      rw [List.any_eq_false]
      intro x hx
      simp [hex x hx]
    unfold is_printer_url
    rw [if_neg h, if_neg (by simp [hexb])]
    simp [Bool.and_eq_true, decide_eq_true_iff, Bool.not_eq_true', and_assoc]

/-- Witness for C4's amended theorem at the concrete accepted URL
"/id-card-printers/zebra/zxp1". -/
theorem is_printer_url_accept_characterization_witness :
    is_printer_url "/id-card-printers/zebra/zxp1" = true
    ∧ (is_printer_url "/id-card-printers/zebra/zxp1" = true ↔
        (includesList.any
            (fun inc => containsSubStr (pyLowerStr "/id-card-printers/zebra/zxp1") inc) = true
          ∧ (splitOnSlash (stripSlashes "/id-card-printers/zebra/zxp1".data)).length ≥ 3
          ∧ endsWithL (pyLowerStr "/id-card-printers/zebra/zxp1").data "printers".data = false)) :=
  ⟨by decide, is_printer_url_accept_characterization _ (by decide)⟩

/-! ## Key Canonicalizer (`clean_column_name`, source lines 539–561) -/

/-- The fixed synonym table of the source (`replacements`). -/
def replacementsTable : List (String × String) :=
  [("weight_dimensions", "dimensions_weight"),
   ("os_compatibility", "operating_systems"),
   ("card_sizes_accepted", "card_sizes"),
   ("card_thickness_accepted", "card_thickness"),
   ("printer_color_capability", "color_capability"),
   ("print_resolution_dpi", "print_resolution"),
   ("printing_speeds_seccard", "print_speed_seconds"),
   ("printing_capability", "print_sides"),
   ("input_hopper_capacity", "input_capacity"),
   ("output_hopper_capacity", "output_capacity")]

/-- The cleaning phase of `clean_column_name` (source lines 544–546):
lower-case, drop punctuation (`re.sub(r'[^\w\s]', '')` keeps exactly word and
whitespace characters), strip, collapse whitespace runs to single underscores
(`re.sub(r'\s+', '_', clean.strip())`), then delete every occurrence of the
three noise suffix tokens with `str.replace`. -/
def cleanPhase (name : String) : List Char :=
  replaceAllGo "_accepted".data [] 0
    (replaceAllGo "_capability".data [] 0
      (replaceAllGo "_options".data [] 0
        (collapseRunsGo '_' false
          (stripWsL ((name.data.map pyLowerC).filter (fun c => isWordC c || isWsC c))))))

/-- Embedding of `clean_column_name` (source lines 539–561): the cleaning
phase followed by the synonym-table lookup `replacements.get(clean, clean)`.
Returns `none` for the empty label, mirroring `if not name: return None`. -/
def clean_column_name (name : String) : Option String :=
  if name = "" then none
  else
    some (((replacementsTable.find? (fun kv => kv.1 == String.mk (cleanPhase name))).map
      (fun kv => kv.2)).getD (String.mk (cleanPhase name)))

/-- C8 counterexample: the label "_options" canonicalizes to the empty string
(the suffix-deletion pass erases it entirely), and feeding that output back in
as a label yields `none` (Python `None`), not the empty string — so
`canonicalize (canonicalize x) = canonicalize x` fails at `x = "_options"`. -/
theorem clean_column_name_not_idempotent_cex :
    clean_column_name "_options" = some ""
    ∧ clean_column_name "" = none
    ∧ (some "" : Option String) ≠ (none : Option String) := by
  refine ⟨by decide, by decide, by decide⟩

/-- Lowering is idempotent per character. -/
lemma pyLowerC_idem (c : Char) : pyLowerC (pyLowerC c) = pyLowerC c := by
  have hval : ∀ q ∈ lowerPairs, pyLowerC q.2 = q.2 := by decide
  cases h : lowerPairs.find? (fun p => p.1 == c) with
  | none =>
    have hc : pyLowerC c = c := by unfold pyLowerC; rw [h]; rfl
    rw [hc]
    exact hc
  | some p =>
    have hc : pyLowerC c = p.2 := by unfold pyLowerC; rw [h]; rfl
    rw [hc]
    exact hval p (List.mem_of_find?_eq_some h)

/-- A character is "clean" when it is a word character, not whitespace, and
fixed by lowering: exactly the characters the cleaning phase can output. -/
def cleanChar (c : Char) : Prop :=
  isWordC c = true ∧ isWsC c = false ∧ pyLowerC c = c

/-- Membership through whitespace stripping. -/
lemma mem_stripWsL {c : Char} {l : List Char} (h : c ∈ stripWsL l) : c ∈ l := by
  unfold stripWsL at h
  rw [List.mem_reverse] at h
  have h1 := (List.dropWhile_sublist (l := (l.dropWhile isWsC).reverse) isWsC).mem h
  rw [List.mem_reverse] at h1
  exact (List.dropWhile_sublist isWsC).mem h1

/-- Every character emitted by run collapsing is the replacement character or
a non-whitespace input character. -/
lemma mem_collapseRunsGo {e c : Char} {l : List Char} :
    ∀ {b : Bool}, c ∈ collapseRunsGo e b l → c = e ∨ (c ∈ l ∧ isWsC c = false) := by
  induction l with
  | nil => intro b h; simp [collapseRunsGo] at h
  | cons d rest ih =>
    intro b h
    by_cases hd : isWsC d = true
    · cases b with
      | true =>
        simp only [collapseRunsGo, hd, if_pos] at h
        rcases ih h with h1 | h2
        · exact Or.inl h1
        · exact Or.inr ⟨List.mem_cons_of_mem _ h2.1, h2.2⟩
      | false =>
        simp only [collapseRunsGo, hd, if_pos] at h
        rcases List.mem_cons.1 h with h1 | h1
        · exact Or.inl h1
        · rcases ih h1 with h2 | h3
          · exact Or.inl h2
          · exact Or.inr ⟨List.mem_cons_of_mem _ h3.1, h3.2⟩
    · simp only [collapseRunsGo, hd, if_neg, Bool.false_eq_true, not_false_iff] at h
      rcases List.mem_cons.1 h with h1 | h1
      · subst h1
        exact Or.inr ⟨List.mem_cons_self _ _, Bool.not_eq_true _ ▸ hd⟩
      · rcases ih h1 with h2 | h3
        · exact Or.inl h2
        · exact Or.inr ⟨List.mem_cons_of_mem _ h3.1, h3.2⟩

/-- Deleting occurrences of a token (replacement by the empty string) only
ever emits input characters. -/
lemma mem_replaceAllGo_nil {old : List Char} {c : Char} :
    ∀ {skip : Nat} {l : List Char}, c ∈ replaceAllGo old [] skip l → c ∈ l := by
  intro skip l
  induction l generalizing skip with
  | nil =>
    intro h
    cases skip <;> simp [replaceAllGo] at h
  | cons d rest ih =>
    intro h
    cases skip with
    | succ n =>
      exact List.mem_cons_of_mem _ (ih h)
    | zero =>
      simp only [replaceAllGo] at h
      split at h
      · simp only [List.nil_append] at h
        exact List.mem_cons_of_mem _ (ih h)
      · rcases List.mem_cons.1 h with h1 | h1
        · exact h1 ▸ List.mem_cons_self _ _
        · exact List.mem_cons_of_mem _ (ih h1)

/-- Every character of the cleaning phase's output is clean. -/
lemma cleanPhase_chars (name : String) : ∀ c ∈ cleanPhase name, cleanChar c := by
  intro c hc
  unfold cleanPhase at hc
  have hc1 := mem_replaceAllGo_nil (mem_replaceAllGo_nil (mem_replaceAllGo_nil hc))
  rcases mem_collapseRunsGo hc1 with h | ⟨hmem, hnw⟩
  · subst h; exact ⟨by decide, by decide, by decide⟩
  · have hk := mem_stripWsL hmem
    rw [List.mem_filter] at hk
    obtain ⟨hlow, hcls⟩ := hk
    rw [List.mem_map] at hlow
    obtain ⟨a, _, ha⟩ := hlow
    refine ⟨?_, hnw, by rw [← ha, pyLowerC_idem]⟩
    rw [Bool.or_eq_true] at hcls
    rcases hcls with h | h
    · exact h
    · rw [hnw] at h; cases h

/-- `dropWhile` is the identity on a list with no satisfying characters. -/
lemma dropWhile_eq_self_of_none {p : Char → Bool} {l : List Char}
    (h : ∀ c ∈ l, p c = false) : l.dropWhile p = l := by
  cases l with
  | nil => rfl
  | cons c rest =>
    rw [List.dropWhile_cons, h c (List.mem_cons_self _ _)]
    simp

/-- Whitespace stripping is the identity on whitespace-free input. -/
lemma stripWsL_eq_self {l : List Char} (h : ∀ c ∈ l, isWsC c = false) :
    stripWsL l = l := by
  unfold stripWsL
  rw [dropWhile_eq_self_of_none h,
      dropWhile_eq_self_of_none (fun c hc => h c (List.mem_reverse.1 hc)),
      List.reverse_reverse]

/-- Run collapsing is the identity on whitespace-free input. -/
lemma collapseRunsGo_eq_self {e : Char} {l : List Char}
    (h : ∀ c ∈ l, isWsC c = false) : ∀ b, collapseRunsGo e b l = l := by
  induction l with
  | nil => intro b; rfl
  | cons d rest ih =>
    intro b
    have hd := h d (List.mem_cons_self _ _)
    simp only [collapseRunsGo, hd, Bool.false_eq_true, if_neg, not_false_iff]
    rw [ih (fun c hc => h c (List.mem_cons_of_mem _ hc)) false]

/-- Token deletion is the identity when the token does not occur. -/
lemma replaceAllGo_eq_self_of_no_occ {old l : List Char}
    (h : containsSubL old l = false) : replaceAllGo old [] 0 l = l := by
  induction l with
  | nil => rfl
  | cons c rest ih =>
    simp only [containsSubL, Bool.or_eq_false_iff] at h
    simp only [replaceAllGo, h.1, Bool.false_eq_true, if_neg, not_false_iff]
    rw [ih h.2]

/-- `map` is the identity when the function fixes every element. -/
lemma map_eq_self_of_fixed {f : Char → Char} {l : List Char}
    (h : ∀ c ∈ l, f c = c) : l.map f = l := by
  induction l with
  | nil => rfl
  | cons c rest ih =>
    rw [List.map_cons, h c (List.mem_cons_self _ _),
        ih (fun d hd => h d (List.mem_cons_of_mem _ hd))]

/-- The cleaning phase is the identity on a non-empty string of clean
characters containing none of the three suffix tokens. -/
lemma cleanPhase_eq_self (y : String)
    (hchars : ∀ c ∈ y.data, cleanChar c)
    (h1 : containsSubStr y "_options" = false)
    (h2 : containsSubStr y "_capability" = false)
    (h3 : containsSubStr y "_accepted" = false) :
    cleanPhase y = y.data := by
  unfold cleanPhase
  rw [map_eq_self_of_fixed (fun c hc => (hchars c hc).2.2)]
  rw [List.filter_eq_self.2 (fun c hc => by
    rw [(hchars c hc).1]; simp)]
  rw [stripWsL_eq_self (fun c hc => (hchars c hc).2.1)]
  rw [collapseRunsGo_eq_self (fun c hc => (hchars c hc).2.1) false]
  rw [replaceAllGo_eq_self_of_no_occ h1, replaceAllGo_eq_self_of_no_occ h2,
      replaceAllGo_eq_self_of_no_occ h3]

/-- C8 (amended): canonicalization is idempotent for every label whose
canonical output is non-empty and contains none of the three noise suffix
tokens "_options", "_capability", "_accepted".  (The counterexample shows
the unrestricted claim fails: deleting the tokens can erase the whole label
or manufacture a fresh token by juxtaposition.) -/
theorem clean_column_name_idempotent_amended (x y : String)
    (hx : clean_column_name x = some y) (hy : y ≠ "")
    (h1 : containsSubStr y "_options" = false)
    (h2 : containsSubStr y "_capability" = false)
    (h3 : containsSubStr y "_accepted" = false) :
    clean_column_name y = some y := by
  have hvals : ∀ kv ∈ replacementsTable,
      containsSubStr kv.2 "_options" = false →
      containsSubStr kv.2 "_capability" = false →
      containsSubStr kv.2 "_accepted" = false →
      clean_column_name kv.2 = some kv.2 := by decide
  by_cases hxe : x = ""
  · subst hxe; simp [clean_column_name] at hx
  · rw [clean_column_name, if_neg hxe] at hx
    cases hfind : replacementsTable.find? (fun kv => kv.1 == String.mk (cleanPhase x)) with
    | some kv =>
      rw [hfind] at hx
      simp only [Option.map_some', Option.getD_some, Option.some_inj] at hx
      subst hx
      exact hvals kv (List.mem_of_find?_eq_some hfind) h1 h2 h3
    | none =>
      rw [hfind] at hx
      simp only [Option.map_none', Option.getD_none, Option.some_inj] at hx
      have hydata : y.data = cleanPhase x := by rw [← hx]
      have hchars : ∀ c ∈ y.data, cleanChar c := by
        rw [hydata]; exact cleanPhase_chars x
      have hself : cleanPhase y = y.data := cleanPhase_eq_self y hchars h1 h2 h3
      have hmk : String.mk (cleanPhase y) = y := by
        rw [hself]
      rw [clean_column_name, if_neg hy, hmk]
      have : replacementsTable.find? (fun kv => kv.1 == y) = none := by
        rw [← hx]; exact hfind
      rw [this]
      rfl

/-- Witness for C8's amended theorem: the label "OS Compatibility"
canonicalizes to "operating_systems", which is a fixed point. -/
theorem clean_column_name_idempotent_amended_witness :
    clean_column_name "OS Compatibility" = some "operating_systems"
    ∧ clean_column_name "operating_systems" = some "operating_systems" :=
  ⟨by decide,
   clean_column_name_idempotent_amended "OS Compatibility" "operating_systems"
     (by decide) (by decide) (by decide) (by decide) (by decide)⟩

/-! ## Numbers and formatting (models of Python `float`, `round`, `str`)

Python floats are idealised as exact rationals, represented as explicit
numerator/denominator pairs `PyNum` (denominators are positive by
construction; no normalization is needed).  `round(x, d)` is CPython's
round-half-to-even, modelled exactly; `str()` of the rounded float is its
shortest fixed-point form (trailing zeros dropped, at least one digit after
the point), which is what CPython prints for every value reached here. -/

/-- An exact rational `num / den` modelling a Python float; every value the
embedding builds has `den > 0`. -/
structure PyNum where
  num : ℤ
  den : ℕ
  deriving DecidableEq

/-- Embed a natural number. -/
def pnOfNat (n : ℕ) : PyNum :=
  ⟨n, 1⟩

/-- Exact product of two Python numbers. -/
def pnMul (a b : PyNum) : PyNum :=
  ⟨a.num * b.num, a.den * b.den⟩

/-- Exact quotient of two Python numbers (used only to state what the
spec's division direction would produce). -/
def pnDiv (a b : PyNum) : PyNum :=
  if 0 ≤ b.num then ⟨a.num * b.den, a.den * b.num.natAbs⟩
  else ⟨-(a.num * b.den), a.den * b.num.natAbs⟩

/-- Round-half-to-even to an integer (CPython's `round` tie-breaking):
`f = ⌊q⌋`, and the fractional remainder `r = q - f` (with numerator `rnum`
over `den`) is compared against one half by cross-multiplication. -/
def rhe (q : PyNum) : ℤ :=
  let f := Int.fdiv q.num q.den
  let rnum := q.num - f * q.den
  if 2 * rnum < (q.den : ℤ) then f
  else if (q.den : ℤ) < 2 * rnum then f + 1
  else if f % 2 = 0 then f else f + 1

/-- Model of `round(q, d)` scaled to an integer: the numerator of the result
over `10 ^ d`. -/
def roundToInt (d : Nat) (q : PyNum) : ℤ :=
  rhe ⟨q.num * (10 : ℤ) ^ d, q.den⟩

/-- Decimal digit character. -/
def digitChar : Nat → Char
  | 0 => '0' | 1 => '1' | 2 => '2' | 3 => '3' | 4 => '4'
  | 5 => '5' | 6 => '6' | 7 => '7' | 8 => '8' | _ => '9'

/-- Decimal digits of a natural number, most significant first (fuelled). -/
def natDigitsGo : Nat → Nat → List Char
  | 0, _ => []
  | fuel+1, n => if n < 10 then [digitChar n] else natDigitsGo fuel (n / 10) ++ [digitChar (n % 10)]

/-- Decimal text of a natural number. -/
def natToChars (n : Nat) : List Char :=
  natDigitsGo (n + 1) n

/-- Drop trailing zeros from a fractional-digit block, keeping at least one
digit (Python prints `62.0`, not `62.`). -/
def stripTrailingZerosKeepOne (l : List Char) : List Char :=
  match l.reverse.dropWhile (fun c => c == '0') with
  | [] => ['0']
  | r => r.reverse

/-- Left-pad a digit block with zeros to width `d`. -/
def padLeftZeros (d : Nat) (l : List Char) : List Char :=
  List.replicate (d - l.length) '0' ++ l

/-- Text of the float `n / 10 ^ d` as Python's `str` prints it. -/
def fmtFixed (d : Nat) (n : ℤ) : List Char :=
  (if n < 0 then ['-'] else [])
    ++ natToChars (n.natAbs / 10 ^ d)
    ++ '.' :: stripTrailingZerosKeepOne (padLeftZeros d (natToChars (n.natAbs % 10 ^ d)))

/-- Model of the f-string payload `f"{round(q, d)}"`. -/
def fmtRound (d : Nat) (q : PyNum) : List Char :=
  fmtFixed d (roundToInt d q)

/-! ## Measurement Normalizer (`convert_measurements`, source lines 253–304)

Each regex family `(\d+\.?\d*)\s*(?:UNITS)` is embedded as a character-level
scanner reproducing `re.finditer` semantics: leftmost matches, scanning
resumes after a match, a failed position advances one character.  The numeric
part is parsed greedily; since no unit alternative begins with a digit, a dot
or whitespace, greedy matching of `\d+\.?\d*\s*` agrees with the

backtracking regex engine on these patterns.  Alternations are tried in the
source order, with `X?` preferring the longer form, exactly as `re` does. -/

/-- Case-insensitive anchored literal match (model of `re.IGNORECASE`). -/
def ciStartsWith : List Char → List Char → Bool
  | [], _ => true
  | _ :: _, [] => false
  | p :: ps, c :: cs => pyLowerC p == pyLowerC c && ciStartsWith ps cs

/-- The apostrophe character (the foot mark in the source's regex). -/
def apoChar : Char :=
  Char.ofNat 39

/-- Unit alternation of the first inch pattern `(?:inches?|in|")`:
`inches?` prefers "inches" over "inche", then "in", then the double quote. -/
def inchUnitA (s : List Char) : Option Nat :=
  if ciStartsWith "inches".data s then some 6
  else if ciStartsWith "inche".data s then some 5
  else if ciStartsWith "in".data s then some 2
  else if ciStartsWith "\"".data s then some 1
  else none

/-- Unit alternation of the second inch pattern `(?:inch|inches)` (tried in
source order: "inch" first, so "inches" is unreachable). -/
def inchUnitB (s : List Char) : Option Nat :=
  if ciStartsWith "inch".data s then some 4
  else if ciStartsWith "inches".data s then some 6
  else none

/-- Unit alternation of the foot pattern `(?:feet|foot|ft|\')`. -/
def footUnit (s : List Char) : Option Nat :=
  if ciStartsWith "feet".data s then some 4
  else if ciStartsWith "foot".data s then some 4
  else if ciStartsWith "ft".data s then some 2
  else if ciStartsWith [apoChar] s then some 1
  else none

/-- Unit alternation of the weight pattern `(?:lbs?|pounds?|pound)` (the last
alternative is a duplicate in the source and is kept here). -/
def poundUnit (s : List Char) : Option Nat :=
  if ciStartsWith "lbs".data s then some 3
  else if ciStartsWith "lb".data s then some 2
  else if ciStartsWith "pounds".data s then some 6
  else if ciStartsWith "pound".data s then some 5
  else if ciStartsWith "pound".data s then some 5
  else none

/-- Numeric value of a decimal digit block. -/
def digitsToNat (l : List Char) : Nat :=
  l.foldl (fun a c => 10 * a + (c.toNat - 48)) 0

/-- Rational value of the captured group `\d+\.?\d*` with integer part `d1`
and fractional part `d2` (what Python's `float(match.group(1))` computes). -/
def ratOfParts (d1 d2 : List Char) : PyNum :=
  ⟨digitsToNat (d1 ++ d2), 10 ^ d2.length⟩

/-- Match the numeric piece `\d+\.?\d*` at the head of the input, returning
its value and its length. -/
def splitNum (s : List Char) : Option (PyNum × Nat) :=
  let d1 := s.takeWhile isDigitC
  if d1.length = 0 then none
  else
    match s.drop d1.length with
    | '.' :: r2 =>
      some (ratOfParts d1 (r2.takeWhile isDigitC), d1.length + 1 + (r2.takeWhile isDigitC).length)
    | _ => some (ratOfParts d1 [], d1.length)

/-- Match one whole pattern occurrence `(\d+\.?\d*)\s*(?:UNITS)` at the head
of the input: returns the matched text (`match.group(0)`) and the captured
numeric value. -/
def tryMatch (um : List Char → Option Nat) (s : List Char) : Option (List Char × PyNum) :=
  match splitNum s with
  | none => none
  | some (q, numLen) =>
    match um ((s.drop numLen).drop ((s.drop numLen).takeWhile isWsC).length) with
    | none => none
    | some ulen => some (s.take (numLen + ((s.drop numLen).takeWhile isWsC).length + ulen), q)

/-- The `re.finditer` scan: collect all leftmost non-overlapping matches.
The `Nat` is the number of characters of an already-collected match still to
be skipped. -/
def scanGo (um : List Char → Option Nat) : Nat → List Char → List (List Char × PyNum)
  | skip+1, _ :: rest => scanGo um skip rest
  | _, [] => []
  | 0, c :: rest =>
    match tryMatch um (c :: rest) with
    | some (whole, q) => (whole, q) :: scanGo um (whole.length - 1) rest
    | none => scanGo um 0 rest

/-- The replacement loop body: for each collected match, in order, replace
the first occurrence of its matched text in the current string with the
converted metric text — `converted_text.replace(old_text, new_text, 1)`. -/
def applyRepl (conv : PyNum → List Char) : List (List Char × PyNum) → List Char → List Char
  | [], s => s
  | (w, q) :: ms, s => applyRepl conv ms (replaceFirstL w (conv q) s)

/-- One pattern family of `convert_measurements`: scan the current text for
all matches, then convert each in order. -/
def convFamily (um : List Char → Option Nat) (conv : PyNum → List Char) (s : List Char) : List Char :=
  applyRepl conv (scanGo um 0 s) s

/-- Metric unit suffix "mm". -/
def mmSuffix : List Char :=
  "mm".data

/-- Metric unit suffix "kg". -/
def kgSuffix : List Char :=
  "kg".data

/-- The conversion constant 25.4 (mm per inch). -/
def mmPerInch : PyNum :=
  ⟨254, 10⟩

/-- The conversion constant 304.8 (mm per foot). -/
def mmPerFoot : PyNum :=
  ⟨3048, 10⟩

/-- The conversion constant 0.453592 (kg per pound). -/
def kgPerPound : PyNum :=
  ⟨453592, 1000000⟩

/-- Inch replacement text `f"{round(inches * 25.4, 1)}mm"`. -/
def inchRepl (q : PyNum) : List Char :=
  fmtRound 1 (pnMul q mmPerInch) ++ mmSuffix

/-- Foot replacement text `f"{round(feet * 304.8, 1)}mm"`. -/
def footRepl (q : PyNum) : List Char :=
  fmtRound 1 (pnMul q mmPerFoot) ++ mmSuffix

/-- Pound replacement text `f"{round(pounds * 0.453592, 2)}kg"`. -/
def poundRepl (q : PyNum) : List Char :=
  fmtRound 2 (pnMul q kgPerPound) ++ kgSuffix

/-- Embedding of `convert_measurements` (source lines 253–304): the four
pattern families applied in source order (two inch patterns, feet, pounds),
with `if not text: return text` first. -/
def convert_measurements (text : String) : String :=
  if text = "" then text
  else
    String.mk (convFamily poundUnit poundRepl
      (convFamily footUnit footRepl
        (convFamily inchUnitB inchRepl
          (convFamily inchUnitA inchRepl text.data))))

/-- C5: the Measurement Normalizer converts at 1 inch = 25.4 mm,
1 foot = 304.8 mm, 1 pound = 0.453592 kg, rounding lengths to 1 decimal and
masses to 2; in particular normalizing "12 inches" yields a string containing
"304.8mm" and normalizing "5 lbs" yields one containing "2.27kg". -/
theorem convert_measurements_metric_constants :
    containsSubStr (convert_measurements "12 inches") "304.8mm" = true
    ∧ containsSubStr (convert_measurements "5 lbs") "2.27kg" = true
    ∧ (∀ q : PyNum, inchRepl q = fmtRound 1 (pnMul q ⟨254, 10⟩) ++ mmSuffix)
    ∧ (∀ q : PyNum, footRepl q = fmtRound 1 (pnMul q ⟨3048, 10⟩) ++ mmSuffix)
    ∧ (∀ q : PyNum, poundRepl q = fmtRound 2 (pnMul q ⟨453592, 1000000⟩) ++ kgSuffix) :=
  ⟨by decide, by decide, fun _ => rfl, fun _ => rfl, fun _ => rfl⟩

/-- C6: every collected match is converted by replacing only the FIRST
occurrence of its matched literal in the current text (`replace(..., 1)`):
the conversion step is literally first-occurrence replacement, a single step
leaves later identical occurrences untouched, and distinct matches are each
converted independently. -/
theorem convert_measurements_first_occurrence_replacement :
    (∀ (conv : PyNum → List Char) (w : List Char) (q : PyNum) (ms : List (List Char × PyNum)) (s : List Char),
        applyRepl conv ((w, q) :: ms) s = applyRepl conv ms (replaceFirstL w (conv q) s))
    ∧ replaceFirstL "2 in".data "50.8mm".data "2 in and 2 in".data = "50.8mm and 2 in".data
    ∧ convert_measurements "2 in x 3 in" = "50.8mm x 76.2mm" :=
  ⟨fun _ _ _ _ _ => rfl, by decide, by decide⟩

/-! ## Currency Converter (`convert_usd_to_aud`, source lines 364–371 and
969–985; the function body is split across the file's interleaved revisions) -/

/-- Negate a Python number. -/
def pnNeg (a : PyNum) : PyNum :=
  ⟨-a.num, a.den⟩

/-- Parse an unsigned plain decimal numeral (`123`, `1.5`, `.5`, `1.`) as
Python's `float()` does.  (Exponents and the special words `inf`/`nan`,
which `float()` also accepts but which never reach this code path for a
cleaned price string, are not modelled.) -/
def parseUnsigned (l : List Char) : Option PyNum :=
  let d1 := l.takeWhile isDigitC
  match l.drop d1.length with
  | [] => if d1.isEmpty then none else some ⟨digitsToNat d1, 1⟩
  | '.' :: r2 =>
    let d2 := r2.takeWhile isDigitC
    if (r2.drop d2.length).isEmpty && (!d1.isEmpty || !d2.isEmpty) then
      some ⟨digitsToNat (d1 ++ d2), 10 ^ d2.length⟩
    else none
  | _ => none

/-- Model of Python's `float()` on a cleaned price string: optional sign,
then a plain decimal numeral; any other input raises `ValueError` (here:
`none`). -/
def parseFloat (s : String) : Option PyNum :=
  match s.data with
  | '-' :: r => (parseUnsigned r).map pnNeg
  | '+' :: r => parseUnsigned r
  | l => parseUnsigned l

/-- Embedding of `convert_usd_to_aud` (source lines 364–371 and 969–985):
clean the price string by deleting dollar signs and commas and stripping
whitespace, parse it as a float, MULTIPLY by the conversion rate (the
source's default rate is 0.62), round to 2 decimals and render with `str`.
Empty input, an empty cleaned string, or an unparseable number yield the
empty string. -/
def convert_usd_to_aud (usd_price : String) (conversion_rate : PyNum) : String :=
  if usd_price = "" then ""
  else
    if pyStripWs (pyReplaceAll (pyReplaceAll usd_price "$" "") "," "") = "" then ""
    else
      match parseFloat (pyStripWs (pyReplaceAll (pyReplaceAll usd_price "$" "") "," "")) with
      | none => ""
      | some usd => String.mk (fmtRound 2 (pnMul usd conversion_rate))

/-- C1: at the failing input `usd_price = "100"` with the source's rate
0.62, the Currency Converter MULTIPLIES the cleaned amount by the rate and
returns "62.0"; the claimed (and, per the code's own rate documentation
"0.62 USD = 1 AUD", intended) division would return "161.29". -/
theorem convert_usd_to_aud_multiplies_at_failing_input :
    convert_usd_to_aud "100" ⟨62, 100⟩ = "62.0"
    ∧ convert_usd_to_aud "$1,000" ⟨62, 100⟩ = "620.0"
    ∧ String.mk (fmtRound 2 (pnDiv ⟨100, 1⟩ ⟨62, 100⟩)) = "161.29"
    ∧ ("62.0" : String) ≠ "161.29" := by
  refine ⟨by decide, by decide, by decide, by decide⟩

/-! ## Fragment Repair (`extract_product_description`, source lines 454–489)

The post-processing of the extracted description HTML: five
wrapper-stripping substitutions `re.sub(r'<div[^>]*MARKER[^>]*>', '', ...)`,
then the tag-rebalancing loop (count `<div[^>]*>` and `</div>` occurrences
with `re.findall`; while there are more closers than openers, delete one
closer matching `</div>(?!.*</div>)` with `re.sub(..., count=1)`), then
whitespace collapsing and stripping.

The two counting scanners mirror `re.findall`: they test the pattern at each
position and skip past a match (the `Nat` state is the number of characters
of the current match still to skip); a `<div` with no later `>` fails and the
scan advances one character.  The closer-deletion scanner removes the first
`</div>` whose same-line tail (`.` does not match newlines) contains no
further `</div>`, exactly as the negative lookahead does. -/

/-- The literal closer tag `</div>`. -/
def closePat : List Char :=
  ['<', '/', 'd', 'i', 'v', '>']

/-- The opening-tag head `<div` of the pattern `<div[^>]*>`. -/
def openPfx : List Char :=
  ['<', 'd', 'i', 'v']

/-- Index of the first `>` in the list, if any (the end of `[^>]*>`). -/
def findGtIdx : List Char → Option Nat
  | [] => none
  | c :: rest => if c == '>' then some 0 else (findGtIdx rest).map (fun n => n + 1)

/-- Number of `re.findall(r'</div>', s)` matches. -/
def countCloseGo : Nat → List Char → Nat
  | skip+1, _ :: rest => countCloseGo skip rest
  | _, [] => 0
  | 0, c :: rest =>
    if startsWithL closePat (c :: rest) then 1 + countCloseGo 5 rest
    else countCloseGo 0 rest

/-- Number of `re.findall(r'<div[^>]*>', s)` matches: at `<div`, the match
extends to the first following `>`; with no `>` the position fails. -/
def countOpensGo : Nat → List Char → Nat
  | skip+1, _ :: rest => countOpensGo skip rest
  | _, [] => 0
  | 0, c :: rest =>
    if startsWithL openPfx (c :: rest) then
      match findGtIdx (rest.drop 3) with
      | some k => 1 + countOpensGo (3 + k + 1) rest
      | none => countOpensGo 0 rest
    else countOpensGo 0 rest

/-- The same-line tail: `.` in the lookahead does not match newlines. -/
def takeLine (l : List Char) : List Char :=
  l.takeWhile (fun c => !(c == '\n'))

/-- Model of `re.sub(r'</div>(?!.*</div>)', '', s, count=1)`: delete the
first `</div>` not followed by another `</div>` on the same line; if no
position matches, return the input unchanged. -/
def removeLastCloser : List Char → List Char
  | [] => []
  | c :: rest =>
    if startsWithL closePat (c :: rest) && !(containsSubL closePat (takeLine (rest.drop 5))) then
      rest.drop 5
    else c :: removeLastCloser rest

/-- The rebalancing loop body applied `n` times. -/
def iterRemove : Nat → List Char → List Char
  | 0, s => s
  | n+1, s => iterRemove n (removeLastCloser s)

/-- Match of `<div[^>]*MARKER[^>]*>` anchored at the head: succeeds exactly
when the head is `<div`, some `>` follows, and the marker occurs among the
characters strictly before that first `>`; returns the match length. -/
def tagMatchLen (marker s : List Char) : Option Nat :=
  if startsWithL openPfx s then
    match findGtIdx (s.drop 4) with
    | some k => if containsSubL marker ((s.drop 4).take k) then some (4 + k + 1) else none
    | none => none
  else none

/-- Model of `re.sub(r'<div[^>]*MARKER[^>]*>', '', s)`: delete every match,
scanning left to right. -/
def stripTagGo (marker : List Char) : Nat → List Char → List Char
  | skip+1, _ :: rest => stripTagGo marker skip rest
  | _, [] => []
  | 0, c :: rest =>
    match tagMatchLen marker (c :: rest) with
    | some len => stripTagGo marker (len - 1) rest
    | none => c :: stripTagGo marker 0 rest

/-- Wrapper marker `data-content-type="html"`. -/
def markerContentType : List Char :=
  "data-content-type=\"html\"".data

/-- Wrapper marker `data-appearance="default"`. -/
def markerAppearance : List Char :=
  "data-appearance=\"default\"".data

/-- Wrapper marker `data-element="main"`. -/
def markerElementMain : List Char :=
  "data-element=\"main\"".data

/-- Wrapper marker `data-decoded="true"`. -/
def markerDecoded : List Char :=
  "data-decoded=\"true\"".data

/-- Wrapper marker `class="value"`. -/
def markerClassValue : List Char :=
  "class=\"value\"".data

/-- The five wrapper-stripping substitutions, in source order. -/
def stripAllMarkers (s : List Char) : List Char :=
  stripTagGo markerClassValue 0
    (stripTagGo markerDecoded 0
      (stripTagGo markerElementMain 0
        (stripTagGo markerAppearance 0
          (stripTagGo markerContentType 0 s))))

/-- The tag-rebalancing step: if there are more closers than openers, delete
the excess count of closers one at a time. -/
def rebalance (s : List Char) : List Char :=
  if countOpensGo 0 s < countCloseGo 0 s then
    iterRemove (countCloseGo 0 s - countOpensGo 0 s) s
  else s

/-- The whole Fragment Repair post-processing of the description HTML
(source lines 473–489): wrapper stripping, rebalancing, whitespace
collapsing, stripping; the empty fragment passes through unchanged
(`if description_html:`). -/
def repairDescription (s : List Char) : List Char :=
  if s.isEmpty then s
  else stripWsL (collapseRunsGo ' ' false (rebalance (stripAllMarkers s)))

/-- Embedding of `extract_product_description` (source lines 454–489): the
structural find-cascade is the external document query (its result, the
`decode_contents` string of whichever container was found, is the `Option
String` input — `none` when no description container exists), followed by
Fragment Repair. -/
def extract_product_description (found : Option String) : String :=
  match found with
  | none => ""
  | some h => String.mk (repairDescription h.data)

/-- Embedding of `extract_product_highlights` (source lines 491–506): the
found container's contents with the `class="value"` wrapper stripped and
whitespace collapsed and stripped; empty or missing contents yield "". -/
def extract_product_highlights (found : Option String) : String :=
  match found with
  | none => ""
  | some h =>
    if h.data.isEmpty then ""
    else String.mk (stripWsL (collapseRunsGo ' ' false (stripTagGo markerClassValue 0 h.data)))

/-- C2 counterexample: on the fragment "</d</div>iv>" (no wrapper matches,
zero `<div[^>]*>` matches, one `</div>` match) the rebalancing loop deletes
the lone `</div>`, but the deletion glues "</d" and "iv>" into a NEW
`</div>` — the repaired output is exactly "</div>", which has one closing
and zero opening block tags, refuting closeCount ≤ openCount. -/
theorem repair_close_le_open_cex :
    extract_product_description (some "</d</div>iv>") = "</div>"
    ∧ countCloseGo 0 "</div>".data = 1
    ∧ countOpensGo 0 "</div>".data = 0 := by
  refine ⟨by decide, by decide, by decide⟩

/-! ## Token model for the amended Fragment Repair guarantee

The counterexample shows the unrestricted guarantee fails when a deletion
glues characters into a fresh tag.  The amended claim restricts to fragments
that parse as a sequence of tokens: plain text without `<`, opening tags
`<div…>` whose attribute text contains neither `<` nor `>`, and literal
`</div>` closers.  On such fragments the repair pipeline really does leave
at most as many closers as openers. -/

/-- A fragment token: text, an opening `<div…>` tag with attribute text `t`,
or the literal closer `</div>`. -/
inductive DivAtom where
  | txt (t : List Char)
  | opn (t : List Char)
  | cls
  deriving DecidableEq

/-- Well-formedness of one token: text has no `<`; attribute text of an
opening tag has neither `<` nor `>`. -/
def atomOKb : DivAtom → Bool
  | .txt t => t.all (fun c => !(c == '<'))
  | .opn t => t.all (fun c => !(c == '<') && !(c == '>'))
  | .cls => true

/-- Well-formedness of a token list. -/
def wfAtoms (L : List DivAtom) : Bool :=
  L.all atomOKb

/-- The characters of one token. -/
def renderAtom : DivAtom → List Char
  | .txt t => t
  | .opn t => '<' :: 'd' :: 'i' :: 'v' :: (t ++ ['>'])
  | .cls => closePat

/-- The characters of a token list. -/
def renderAtoms : List DivAtom → List Char
  | [] => []
  | a :: rest => renderAtom a ++ renderAtoms rest

/-- Number of opening-tag tokens. -/
def opnCount : List DivAtom → Nat
  | [] => 0
  | .opn _ :: rest => 1 + opnCount rest
  | _ :: rest => opnCount rest

/-- Number of closer tokens. -/
def clsCount : List DivAtom → Nat
  | [] => 0
  | .cls :: rest => 1 + clsCount rest
  | _ :: rest => clsCount rest

/-- Anchored match of a pattern at its own copy always succeeds. -/
lemma startsWithL_append_self (p r : List Char) : startsWithL p (p ++ r) = true := by
  induction p with
  | nil => rfl
  | cons a ps ih => simp [startsWithL, ih]

/-- A successful anchored match means every pattern character occurs in the
scanned list. -/
lemma mem_of_startsWithL {p u : List Char} (h : startsWithL p u = true) :
    ∀ c ∈ p, c ∈ u := by
  induction p generalizing u with
  | nil => intro c hc; cases hc
  | cons a ps ih =>
    cases u with
    | nil => cases h
    | cons b u2 =>
      simp only [startsWithL, Bool.and_eq_true, beq_iff_eq] at h
      intro c hc
      rcases List.mem_cons.1 hc with h1 | h1
      · exact h1 ▸ h.1 ▸ List.mem_cons_self _ _
      · exact List.mem_cons_of_mem _ (ih h.2 c h1)

/-- `closePat` never matches at a character other than `<`. -/
lemma startsWith_closePat_cons_false {c : Char} {rest : List Char} (h : ¬ c = '<') :
    startsWithL closePat (c :: rest) = false := by
  simp [closePat, startsWithL]
  intro he
  exact absurd he.symm h

/-- `openPfx` never matches at a character other than `<`. -/
lemma startsWith_openPfx_cons_false {c : Char} {rest : List Char} (h : ¬ c = '<') :
    startsWithL openPfx (c :: rest) = false := by
  simp [openPfx, startsWithL]
  intro he
  exact absurd he.symm h

/-- `closePat` never matches at the head of an opening tag (`d ≠ /`). -/
lemma startsWith_closePat_opn_false (l : List Char) :
    startsWithL closePat ('<' :: 'd' :: l) = false := by
  simp [closePat, startsWithL]

/-- `openPfx` never matches at the head of a closer (`/ ≠ d`). -/
lemma startsWith_openPfx_cls_false (l : List Char) :
    startsWithL openPfx ('<' :: '/' :: l) = false := by
  simp [openPfx, startsWithL]

/-- A successful `<div` match pins down the first four characters. -/
lemma startsWith_openPfx_shape {c : Char} {x : List Char}
    (h : startsWithL openPfx (c :: x) = true) :
    c = '<' ∧ ∃ r, x = 'd' :: 'i' :: 'v' :: r := by
  cases x with
  | nil => simp [openPfx, startsWithL] at h
  | cons a x1 =>
    cases x1 with
    | nil => simp [openPfx, startsWithL] at h
    | cons b x2 =>
      cases x2 with
      | nil => simp [openPfx, startsWithL] at h
      | cons d x3 =>
        simp only [openPfx, startsWithL, Bool.and_eq_true, beq_iff_eq] at h
        obtain ⟨h1, h2, h3, h4, _⟩ := h
        exact ⟨h1.symm, x3, by rw [← h2, ← h3, ← h4]⟩

/-- Skip-state consumption for the closer counter. -/
lemma countCloseGo_skip (l r : List Char) : countCloseGo l.length (l ++ r) = countCloseGo 0 r := by
  induction l with
  | nil => rfl
  | cons c l2 ih => exact ih

/-- Skip-state consumption for the opener counter. -/
lemma countOpensGo_skip (l r : List Char) : countOpensGo l.length (l ++ r) = countOpensGo 0 r := by
  induction l with
  | nil => rfl
  | cons c l2 ih => exact ih

/-- Skip-state consumption for wrapper stripping. -/
lemma stripTagGo_skip (m l r : List Char) : stripTagGo m l.length (l ++ r) = stripTagGo m 0 r := by
  induction l with
  | nil => rfl
  | cons c l2 ih => exact ih

/-- The closer counter passes over text containing no `<`. -/
lemma countCloseGo_txt {t : List Char} (h : ∀ c ∈ t, ¬ c = '<') (r : List Char) :
    countCloseGo 0 (t ++ r) = countCloseGo 0 r := by
  induction t with
  | nil => rfl
  | cons c t2 ih =>
    rw [List.cons_append, countCloseGo,
        startsWith_closePat_cons_false (h c (List.mem_cons_self _ _))]
    simp only [Bool.false_eq_true, if_false]
    exact ih (fun d hd => h d (List.mem_cons_of_mem _ hd))

/-- The opener counter passes over text containing no `<`. -/
lemma countOpensGo_txt {t : List Char} (h : ∀ c ∈ t, ¬ c = '<') (r : List Char) :
    countOpensGo 0 (t ++ r) = countOpensGo 0 r := by
  induction t with
  | nil => rfl
  | cons c t2 ih =>
    rw [List.cons_append, countOpensGo,
        startsWith_openPfx_cons_false (h c (List.mem_cons_self _ _))]
    simp only [Bool.false_eq_true, if_false]
    exact ih (fun d hd => h d (List.mem_cons_of_mem _ hd))

/-- Closer deletion passes over text containing no `<`. -/
lemma removeLastCloser_txt {t : List Char} (h : ∀ c ∈ t, ¬ c = '<') (r : List Char) :
    removeLastCloser (t ++ r) = t ++ removeLastCloser r := by
  induction t with
  | nil => rfl
  | cons c t2 ih =>
    rw [List.cons_append, removeLastCloser,
        startsWith_closePat_cons_false (h c (List.mem_cons_self _ _))]
    simp only [Bool.false_and, Bool.false_eq_true, if_false, List.cons_append]
    rw [ih (fun d hd => h d (List.mem_cons_of_mem _ hd))]

/-- Wrapper stripping passes over text containing no `<`. -/
lemma stripTagGo_txt {t : List Char} (h : ∀ c ∈ t, ¬ c = '<') (m r : List Char) :
    stripTagGo m 0 (t ++ r) = t ++ stripTagGo m 0 r := by
  induction t with
  | nil => rfl
  | cons c t2 ih =>
    rw [List.cons_append, stripTagGo]
    have hm : tagMatchLen m (c :: (t2 ++ r)) = none := by
      rw [tagMatchLen, startsWith_openPfx_cons_false (h c (List.mem_cons_self _ _))]
      simp
    rw [hm]
    simp only [List.cons_append]
    rw [ih (fun d hd => h d (List.mem_cons_of_mem _ hd))]

/-- Substring search for `</div>` passes over text containing no `<`. -/
lemma containsSub_closePat_txt {t : List Char} (h : ∀ c ∈ t, ¬ c = '<') (r : List Char) :
    containsSubL closePat (t ++ r) = containsSubL closePat r := by
  induction t with
  | nil => rfl
  | cons c t2 ih =>
    rw [List.cons_append, containsSubL,
        startsWith_closePat_cons_false (h c (List.mem_cons_self _ _))]
    simp only [Bool.false_or]
    exact ih (fun d hd => h d (List.mem_cons_of_mem _ hd))

/-- Characters of a well-formed text token. -/
lemma txt_ok_mem {t : List Char} (h : atomOKb (.txt t) = true) : ∀ c ∈ t, ¬ c = '<' := by
  intro c hc
  have := List.all_eq_true.1 h c hc
  simpa using this

/-- Characters of a well-formed opening token's attribute text. -/
lemma opn_ok_mem {t : List Char} (h : atomOKb (.opn t) = true) :
    ∀ c ∈ t, ¬ c = '<' ∧ ¬ c = '>' := by
  intro c hc
  have := List.all_eq_true.1 h c hc
  simp only [Bool.and_eq_true, Bool.not_eq_true', beq_eq_false_iff_ne, ne_eq] at this
  exact this

/-- The visible characters of an opening token after its `<`: none is `<`. -/
lemma opn_tail_no_lt {t : List Char} (h : ∀ c ∈ t, ¬ c = '<' ∧ ¬ c = '>') :
    ∀ c ∈ ('d' :: 'i' :: 'v' :: (t ++ ['>'])), ¬ c = '<' := by
  intro c hc
  simp only [List.mem_cons] at hc
  rcases hc with h1 | h1 | h1 | h1
  · subst h1; decide
  · subst h1; decide
  · subst h1; decide
  · rcases List.mem_append.1 h1 with h2 | h2
    · exact (h c h2).1
    · rw [List.mem_singleton.1 h2]; decide

/-- The characters of a closer after its `<`: none is `<`. -/
lemma cls_tail_no_lt : ∀ c ∈ ['/', 'd', 'i', 'v', '>'], ¬ c = '<' := by decide

/-- First `>` of `t ++ '>' :: r` when `t` has no `>`. -/
lemma findGtIdx_append_no_gt {t : List Char} (h : ∀ c ∈ t, ¬ c = '>') (r : List Char) :
    findGtIdx (t ++ '>' :: r) = some t.length := by
  induction t with
  | nil => rfl
  | cons c t2 ih =>
    rw [List.cons_append, findGtIdx]
    have hc : (c == '>') = false := by
      simpa using h c (List.mem_cons_self _ _)
    rw [hc]
    simp only [Bool.false_eq_true, if_false,
      ih (fun d hd => h d (List.mem_cons_of_mem _ hd))]
    rfl

/-- The opener counter counts a well-formed opening token once. -/
lemma countOpensGo_opn {t : List Char} (h : ∀ c ∈ t, ¬ c = '<' ∧ ¬ c = '>') (r : List Char) :
    countOpensGo 0 (renderAtom (.opn t) ++ r) = 1 + countOpensGo 0 r := by
  have hshape : renderAtom (.opn t) ++ r = '<' :: ('d' :: 'i' :: 'v' :: (t ++ ['>']) ++ r) := by
    simp [renderAtom]
  rw [hshape, countOpensGo]
  have hs : startsWithL openPfx ('<' :: ('d' :: 'i' :: 'v' :: (t ++ ['>']) ++ r)) = true := by
    simp [openPfx, startsWithL]
  rw [hs]
  simp only [if_true]
  have hdrop : ('d' :: 'i' :: 'v' :: (t ++ ['>']) ++ r).drop 3 = t ++ '>' :: r := by
    simp
  rw [hdrop, findGtIdx_append_no_gt (fun c hc => (h c hc).2)]
  show 1 + countOpensGo (3 + t.length + 1) ('d' :: 'i' :: 'v' :: (t ++ ['>']) ++ r)
      = 1 + countOpensGo 0 r
  have hskip : countOpensGo (3 + t.length + 1) ('d' :: 'i' :: 'v' :: (t ++ ['>']) ++ r)
      = countOpensGo 0 r := by
    have hlen : ('d' :: 'i' :: 'v' :: (t ++ ['>'])).length = 3 + t.length + 1 := by
      simp
      omega
    calc countOpensGo (3 + t.length + 1) ('d' :: 'i' :: 'v' :: (t ++ ['>']) ++ r)
        = countOpensGo (('d' :: 'i' :: 'v' :: (t ++ ['>'])).length)
            (('d' :: 'i' :: 'v' :: (t ++ ['>'])) ++ r) := by rw [hlen]
      _ = countOpensGo 0 r := countOpensGo_skip _ _
  rw [hskip]

/-- The closer counter ignores a well-formed opening token. -/
lemma countCloseGo_opn {t : List Char} (h : ∀ c ∈ t, ¬ c = '<' ∧ ¬ c = '>') (r : List Char) :
    countCloseGo 0 (renderAtom (.opn t) ++ r) = countCloseGo 0 r := by
  have hshape : renderAtom (.opn t) ++ r = '<' :: 'd' :: (('i' :: 'v' :: (t ++ ['>'])) ++ r) := by
    simp [renderAtom]
  rw [hshape, countCloseGo, startsWith_closePat_opn_false]
  simp only [Bool.false_eq_true, if_false]
  have : countCloseGo 0 ('d' :: (('i' :: 'v' :: (t ++ ['>'])) ++ r))
      = countCloseGo 0 (('d' :: 'i' :: 'v' :: (t ++ ['>'])) ++ r) := by
    simp
  rw [this, countCloseGo_txt (opn_tail_no_lt h)]

/-- The opener counter ignores a closer token. -/
lemma countOpensGo_cls (r : List Char) :
    countOpensGo 0 (closePat ++ r) = countOpensGo 0 r := by
  have hshape : closePat ++ r = '<' :: '/' :: ((['d', 'i', 'v', '>'] ++ r) : List Char) := by
    simp [closePat]
  rw [hshape, countOpensGo, startsWith_openPfx_cls_false]
  simp only [Bool.false_eq_true, if_false]
  have : countOpensGo 0 ('/' :: (['d', 'i', 'v', '>'] ++ r))
      = countOpensGo 0 ((['/', 'd', 'i', 'v', '>'] : List Char) ++ r) := by simp
  rw [this, countOpensGo_txt cls_tail_no_lt]

/-- The closer counter counts a closer token once. -/
lemma countCloseGo_cls (r : List Char) :
    countCloseGo 0 (closePat ++ r) = 1 + countCloseGo 0 r := by
  have hshape : closePat ++ r = '<' :: ((['/', 'd', 'i', 'v', '>'] : List Char) ++ r) := by
    simp [closePat]
  rw [hshape, countCloseGo]
  have hs : startsWithL closePat ('<' :: ((['/', 'd', 'i', 'v', '>'] : List Char) ++ r)) = true := by
    have := startsWithL_append_self closePat r
    simpa [closePat] using this
  rw [hs]
  simp only [if_true]
  have : countCloseGo 5 ((['/', 'd', 'i', 'v', '>'] : List Char) ++ r) = countCloseGo 0 r :=
    countCloseGo_skip ['/', 'd', 'i', 'v', '>'] r
  rw [this]

/-- Closer deletion passes over a well-formed opening token. -/
lemma removeLastCloser_opn {t : List Char} (h : ∀ c ∈ t, ¬ c = '<' ∧ ¬ c = '>') (r : List Char) :
    removeLastCloser (renderAtom (.opn t) ++ r) = renderAtom (.opn t) ++ removeLastCloser r := by
  have hshape : renderAtom (.opn t) ++ r = '<' :: 'd' :: (('i' :: 'v' :: (t ++ ['>'])) ++ r) := by
    simp [renderAtom]
  rw [hshape, removeLastCloser, startsWith_closePat_opn_false]
  simp only [Bool.false_and, Bool.false_eq_true, if_false]
  have hre : ('d' :: (('i' :: 'v' :: (t ++ ['>'])) ++ r))
      = (('d' :: 'i' :: 'v' :: (t ++ ['>'])) ++ r) := by simp
  rw [hre, removeLastCloser_txt (opn_tail_no_lt h)]
  simp [renderAtom]

/-- Closer deletion removes the head closer when its same-line tail has no
further closer. -/
lemma removeLastCloser_cls_remove {r : List Char}
    (hb : containsSubL closePat (takeLine r) = false) :
    removeLastCloser (closePat ++ r) = r := by
  have hshape : closePat ++ r = '<' :: ((['/', 'd', 'i', 'v', '>'] : List Char) ++ r) := by
    simp [closePat]
  rw [hshape, removeLastCloser]
  have hs : startsWithL closePat ('<' :: ((['/', 'd', 'i', 'v', '>'] : List Char) ++ r)) = true := by
    have := startsWithL_append_self closePat r
    simpa [closePat] using this
  have hdrop : ((['/', 'd', 'i', 'v', '>'] : List Char) ++ r).drop 5 = r := by
    simp
  rw [hs, hdrop, hb]
  simp

/-- Closer deletion keeps the head closer when a later same-line closer
exists, and continues in the tail. -/
lemma removeLastCloser_cls_keep {r : List Char}
    (hb : containsSubL closePat (takeLine r) = true) :
    removeLastCloser (closePat ++ r) = closePat ++ removeLastCloser r := by
  have hshape : closePat ++ r = '<' :: ((['/', 'd', 'i', 'v', '>'] : List Char) ++ r) := by
    simp [closePat]
  rw [hshape, removeLastCloser]
  have hs : startsWithL closePat ('<' :: ((['/', 'd', 'i', 'v', '>'] : List Char) ++ r)) = true := by
    have := startsWithL_append_self closePat r
    simpa [closePat] using this
  have hdrop : ((['/', 'd', 'i', 'v', '>'] : List Char) ++ r).drop 5 = r := by
    simp
  rw [hs, hdrop, hb]
  simp only [Bool.not_true, Bool.and_false, Bool.false_eq_true, if_false]
  rw [removeLastCloser_txt cls_tail_no_lt]
  simp [closePat]

/-- Wrapper stripping passes over a closer token. -/
lemma stripTagGo_cls (m r : List Char) :
    stripTagGo m 0 (closePat ++ r) = closePat ++ stripTagGo m 0 r := by
  have hshape : closePat ++ r = '<' :: '/' :: ((['d', 'i', 'v', '>'] : List Char) ++ r) := by
    simp [closePat]
  rw [hshape, stripTagGo]
  have hm : tagMatchLen m ('<' :: '/' :: ((['d', 'i', 'v', '>'] : List Char) ++ r)) = none := by
    rw [tagMatchLen, startsWith_openPfx_cls_false]
    simp
  rw [hm]
  have hre : ('/' :: ((['d', 'i', 'v', '>'] : List Char) ++ r))
      = ((['/', 'd', 'i', 'v', '>'] : List Char) ++ r) := by simp
  simp only [hre]
  rw [stripTagGo_txt cls_tail_no_lt]
  simp [closePat]

/-- Wrapper stripping deletes a well-formed opening token whose attribute
text contains the marker. -/
lemma stripTagGo_opn_hit {m t : List Char} (h : ∀ c ∈ t, ¬ c = '<' ∧ ¬ c = '>')
    (hm : containsSubL m t = true) (r : List Char) :
    stripTagGo m 0 (renderAtom (.opn t) ++ r) = stripTagGo m 0 r := by
  have hshape : renderAtom (.opn t) ++ r = '<' :: ('d' :: 'i' :: 'v' :: (t ++ ['>']) ++ r) := by
    simp [renderAtom]
  rw [hshape, stripTagGo]
  have htag : tagMatchLen m ('<' :: ('d' :: 'i' :: 'v' :: (t ++ ['>']) ++ r))
      = some (4 + t.length + 1) := by
    rw [tagMatchLen]
    have hs : startsWithL openPfx ('<' :: ('d' :: 'i' :: 'v' :: (t ++ ['>']) ++ r)) = true := by
      simp [openPfx, startsWithL]
    rw [hs]
    simp only [if_true]
    have hdrop : ('<' :: ('d' :: 'i' :: 'v' :: (t ++ ['>']) ++ r)).drop 4 = t ++ '>' :: r := by
      simp
    rw [hdrop, findGtIdx_append_no_gt (fun c hc => (h c hc).2)]
    have htake : (t ++ '>' :: r).take t.length = t := by
      simp [List.take_left]
    show (if containsSubL m ((t ++ '>' :: r).take t.length) = true
        then some (4 + t.length + 1) else none) = some (4 + t.length + 1)
    rw [htake, hm]
    simp
  rw [htag]
  show stripTagGo m (4 + t.length + 1 - 1) ('d' :: 'i' :: 'v' :: (t ++ ['>']) ++ r)
      = stripTagGo m 0 r
  have hlen : ('d' :: 'i' :: 'v' :: (t ++ ['>'])).length = 4 + t.length + 1 - 1 := by
    simp
    omega
  calc stripTagGo m (4 + t.length + 1 - 1) ('d' :: 'i' :: 'v' :: (t ++ ['>']) ++ r)
      = stripTagGo m (('d' :: 'i' :: 'v' :: (t ++ ['>'])).length)
          (('d' :: 'i' :: 'v' :: (t ++ ['>'])) ++ r) := by rw [hlen]
    _ = stripTagGo m 0 r := stripTagGo_skip _ _ _

/-- Wrapper stripping keeps a well-formed opening token whose attribute text
does not contain the marker. -/
lemma stripTagGo_opn_miss {m t : List Char} (h : ∀ c ∈ t, ¬ c = '<' ∧ ¬ c = '>')
    (hm : containsSubL m t = false) (r : List Char) :
    stripTagGo m 0 (renderAtom (.opn t) ++ r) = renderAtom (.opn t) ++ stripTagGo m 0 r := by
  have hshape : renderAtom (.opn t) ++ r = '<' :: ('d' :: 'i' :: 'v' :: (t ++ ['>']) ++ r) := by
    simp [renderAtom]
  rw [hshape, stripTagGo]
  have htag : tagMatchLen m ('<' :: ('d' :: 'i' :: 'v' :: (t ++ ['>']) ++ r)) = none := by
    rw [tagMatchLen]
    have hs : startsWithL openPfx ('<' :: ('d' :: 'i' :: 'v' :: (t ++ ['>']) ++ r)) = true := by
      simp [openPfx, startsWithL]
    rw [hs]
    simp only [if_true]
    have hdrop : ('<' :: ('d' :: 'i' :: 'v' :: (t ++ ['>']) ++ r)).drop 4 = t ++ '>' :: r := by
      simp
    rw [hdrop, findGtIdx_append_no_gt (fun c hc => (h c hc).2)]
    have htake : (t ++ '>' :: r).take t.length = t := by
      simp [List.take_left]
    show (if containsSubL m ((t ++ '>' :: r).take t.length) = true
        then some (4 + t.length + 1) else none) = none
    rw [htake, hm]
    simp
  rw [htag]
  have hre : ('d' :: 'i' :: 'v' :: (t ++ ['>']) ++ r)
      = (('d' :: 'i' :: 'v' :: (t ++ ['>'])) ++ r) := by simp
  simp only [hre]
  rw [stripTagGo_txt (opn_tail_no_lt h)]
  simp [renderAtom]

/-- The empty pattern occurs everywhere. -/
lemma containsSubL_nil_left : ∀ x : List Char, containsSubL [] x = true
  | [] => rfl
  | _ :: rest => by
    rw [containsSubL]
    simp [startsWithL]

/-- An anchored match survives extending the list on the right. -/
lemma startsWithL_append_mono {p u : List Char} (h : startsWithL p u = true) (b : List Char) :
    startsWithL p (u ++ b) = true := by
  induction p generalizing u with
  | nil => rfl
  | cons a ps ih =>
    cases u with
    | nil => cases h
    | cons c u2 =>
      simp only [startsWithL, Bool.and_eq_true] at h
      simp only [List.cons_append, startsWithL, Bool.and_eq_true]
      exact ⟨h.1, ih h.2⟩

/-- A substring occurrence survives extending the list on the right. -/
lemma containsSub_append_left {p a : List Char} (h : containsSubL p a = true) (b : List Char) :
    containsSubL p (a ++ b) = true := by
  induction a with
  | nil =>
    cases p with
    | nil => exact containsSubL_nil_left b
    | cons q ps => cases h
  | cons c a2 ih =>
    rw [containsSubL] at h
    rw [List.cons_append, containsSubL]
    rcases Bool.or_eq_true _ _ |>.mp h with h1 | h1
    · rw [← List.cons_append, startsWithL_append_mono h1]
      simp
    · rw [ih h1]
      simp

/-- An occurrence inside the same-line prefix is an occurrence. -/
lemma containsSub_takeLine {p x : List Char} (h : containsSubL p (takeLine x) = true) :
    containsSubL p x = true := by
  have hx : takeLine x ++ x.dropWhile (fun c => !(c == '\n')) = x := by
    rw [takeLine]
    exact List.takeWhile_append_dropWhile _ _
  rw [← hx]
  exact containsSub_append_left h _

/-- Substring search for `</div>` passes over a well-formed opening token. -/
lemma containsSub_closePat_opn {t : List Char} (h : ∀ c ∈ t, ¬ c = '<' ∧ ¬ c = '>')
    (r : List Char) :
    containsSubL closePat (renderAtom (.opn t) ++ r) = containsSubL closePat r := by
  have hshape : renderAtom (.opn t) ++ r = '<' :: 'd' :: (('i' :: 'v' :: (t ++ ['>'])) ++ r) := by
    simp [renderAtom]
  rw [hshape, containsSubL, startsWith_closePat_opn_false]
  simp only [Bool.false_or]
  have hre : ('d' :: (('i' :: 'v' :: (t ++ ['>'])) ++ r))
      = (('d' :: 'i' :: 'v' :: (t ++ ['>'])) ++ r) := by simp
  rw [hre, containsSub_closePat_txt (opn_tail_no_lt h)]

/-- Well-formedness of a token-list head and tail. -/
lemma wf_cons {a : DivAtom} {L : List DivAtom} (h : wfAtoms (a :: L) = true) :
    atomOKb a = true ∧ wfAtoms L = true := by
  simpa [wfAtoms, Bool.and_eq_true] using h

/-- A `</div>` occurrence in rendered well-formed tokens requires a closer
token. -/
lemma clsCount_pos_of_containsSub {L : List DivAtom} (hwf : wfAtoms L = true)
    (h : containsSubL closePat (renderAtoms L) = true) : 1 ≤ clsCount L := by
  induction L with
  | nil => cases h
  | cons a r ih =>
    obtain ⟨ha, hr⟩ := wf_cons hwf
    cases a with
    | txt t =>
      rw [renderAtoms, renderAtom, containsSub_closePat_txt (txt_ok_mem ha)] at h
      exact ih hr h
    | opn t =>
      rw [renderAtoms, containsSub_closePat_opn (opn_ok_mem ha)] at h
      exact ih hr h
    | cls =>
      show 1 ≤ 1 + clsCount r
      omega

/-- Rendered closer count is the closer-token count. -/
lemma countClose_render {L : List DivAtom} (hwf : wfAtoms L = true) :
    countCloseGo 0 (renderAtoms L) = clsCount L := by
  induction L with
  | nil => rfl
  | cons a r ih =>
    obtain ⟨ha, hr⟩ := wf_cons hwf
    cases a with
    | txt t =>
      rw [renderAtoms, renderAtom, countCloseGo_txt (txt_ok_mem ha), ih hr]
      rfl
    | opn t =>
      rw [renderAtoms, countCloseGo_opn (opn_ok_mem ha), ih hr]
      rfl
    | cls =>
      rw [renderAtoms, renderAtom, countCloseGo_cls, ih hr]
      rfl

/-- Rendered opener count is the opening-token count. -/
lemma countOpens_render {L : List DivAtom} (hwf : wfAtoms L = true) :
    countOpensGo 0 (renderAtoms L) = opnCount L := by
  induction L with
  | nil => rfl
  | cons a r ih =>
    obtain ⟨ha, hr⟩ := wf_cons hwf
    cases a with
    | txt t =>
      rw [renderAtoms, renderAtom, countOpensGo_txt (txt_ok_mem ha), ih hr]
      rfl
    | opn t =>
      rw [renderAtoms, countOpensGo_opn (opn_ok_mem ha), ih hr]
      rfl
    | cls =>
      rw [renderAtoms, renderAtom, countOpensGo_cls, ih hr]
      rfl

/-- Token-level effect of one wrapper-stripping pass: drop the opening
tokens whose attribute text contains the marker. -/
def stripAtoms (m : List Char) : List DivAtom → List DivAtom
  | [] => []
  | .opn t :: rest =>
    if containsSubL m t = true then stripAtoms m rest else .opn t :: stripAtoms m rest
  | a :: rest => a :: stripAtoms m rest

/-- Wrapper stripping of rendered well-formed tokens renders the stripped
token list. -/
lemma stripTagGo_render {m : List Char} {L : List DivAtom} (hwf : wfAtoms L = true) :
    stripTagGo m 0 (renderAtoms L) = renderAtoms (stripAtoms m L) := by
  induction L with
  | nil => rfl
  | cons a r ih =>
    obtain ⟨ha, hr⟩ := wf_cons hwf
    cases a with
    | txt t =>
      rw [renderAtoms, renderAtom, stripTagGo_txt (txt_ok_mem ha), ih hr]
      rfl
    | opn t =>
      by_cases hm : containsSubL m t = true
      · rw [renderAtoms, stripTagGo_opn_hit (opn_ok_mem ha) hm, ih hr]
        rw [show stripAtoms m (DivAtom.opn t :: r) = stripAtoms m r from by
          rw [stripAtoms, if_pos hm]]
      · rw [renderAtoms, stripTagGo_opn_miss (opn_ok_mem ha) (Bool.not_eq_true _ ▸ hm), ih hr]
        rw [show stripAtoms m (DivAtom.opn t :: r) = DivAtom.opn t :: stripAtoms m r from by
          rw [stripAtoms, if_neg hm]]
        rfl
    | cls =>
      rw [renderAtoms, renderAtom, stripTagGo_cls, ih hr]
      rfl

/-- Wrapper stripping preserves token well-formedness. -/
lemma stripAtoms_wf {m : List Char} {L : List DivAtom} (hwf : wfAtoms L = true) :
    wfAtoms (stripAtoms m L) = true := by
  induction L with
  | nil => rfl
  | cons a r ih =>
    obtain ⟨ha, hr⟩ := wf_cons hwf
    cases a with
    | txt t =>
      simpa [stripAtoms, wfAtoms] using ⟨by simpa [atomOKb] using ha, by
        simpa [wfAtoms] using ih hr⟩
    | opn t =>
      by_cases hm : containsSubL m t = true
      · rw [stripAtoms, if_pos hm]
        exact ih hr
      · rw [stripAtoms, if_neg hm]
        simpa [wfAtoms] using ⟨by simpa [atomOKb] using ha, by
          simpa [wfAtoms] using ih hr⟩
    | cls =>
      simpa [stripAtoms, wfAtoms] using ⟨by rfl, by simpa [wfAtoms] using ih hr⟩

/-- Wrapper stripping preserves the closer-token count. -/
lemma stripAtoms_cls (m : List Char) (L : List DivAtom) :
    clsCount (stripAtoms m L) = clsCount L := by
  induction L with
  | nil => rfl
  | cons a r ih =>
    cases a with
    | txt t =>
      show clsCount (DivAtom.txt t :: stripAtoms m r) = clsCount (DivAtom.txt t :: r)
      show clsCount (stripAtoms m r) = clsCount r
      exact ih
    | opn t =>
      by_cases hm : containsSubL m t = true
      · rw [stripAtoms, if_pos hm, ih]
        rfl
      · rw [stripAtoms, if_neg hm]
        show clsCount (stripAtoms m r) = clsCount r
        exact ih
    | cls =>
      show 1 + clsCount (stripAtoms m r) = 1 + clsCount r
      rw [ih]

/-- One closer deletion on rendered well-formed tokens with at least one
closer removes exactly one closer token. -/
lemma removeLastCloser_render {L : List DivAtom} (hwf : wfAtoms L = true)
    (hc : 1 ≤ clsCount L) :
    ∃ M, wfAtoms M = true ∧ removeLastCloser (renderAtoms L) = renderAtoms M
      ∧ clsCount M + 1 = clsCount L ∧ opnCount M = opnCount L := by
  induction L with
  | nil => cases hc
  | cons a r ih =>
    obtain ⟨ha, hr⟩ := wf_cons hwf
    cases a with
    | txt t =>
      have hc2 : 1 ≤ clsCount r := hc
      obtain ⟨M, hMwf, hMeq, hMc, hMo⟩ := ih hr hc2
      refine ⟨DivAtom.txt t :: M, ?_, ?_, hMc, hMo⟩
      · simpa [wfAtoms] using ⟨by simpa [atomOKb] using ha, by simpa [wfAtoms] using hMwf⟩
      · rw [renderAtoms, renderAtom, removeLastCloser_txt (txt_ok_mem ha), hMeq]
        rfl
    | opn t =>
      have hc2 : 1 ≤ clsCount r := hc
      obtain ⟨M, hMwf, hMeq, hMc, hMo⟩ := ih hr hc2
      refine ⟨DivAtom.opn t :: M, ?_, ?_, hMc, ?_⟩
      · simpa [wfAtoms] using ⟨by simpa [atomOKb] using ha, by simpa [wfAtoms] using hMwf⟩
      · rw [renderAtoms, removeLastCloser_opn (opn_ok_mem ha), hMeq]
        rfl
      · show 1 + opnCount M = 1 + opnCount r
        rw [hMo]
    | cls =>
      by_cases hb : containsSubL closePat (takeLine (renderAtoms r)) = true
      · have hocc : containsSubL closePat (renderAtoms r) = true := containsSub_takeLine hb
        have hc2 : 1 ≤ clsCount r := clsCount_pos_of_containsSub hr hocc
        obtain ⟨M, hMwf, hMeq, hMc, hMo⟩ := ih hr hc2
        refine ⟨DivAtom.cls :: M, ?_, ?_, ?_, hMo⟩
        · simpa [wfAtoms] using ⟨by rfl, by simpa [wfAtoms] using hMwf⟩
        · rw [renderAtoms, renderAtom, removeLastCloser_cls_keep hb, hMeq]
          rfl
        · show (1 + clsCount M) + 1 = 1 + clsCount r
          omega
      · refine ⟨r, hr, ?_, ?_, rfl⟩
        · rw [renderAtoms, renderAtom,
            removeLastCloser_cls_remove (Bool.not_eq_true _ ▸ hb)]
        · show clsCount r + 1 = 1 + clsCount r
          omega

/-- Iterated closer deletion on rendered well-formed tokens removes exactly
`n` closer tokens when `n` of them exist. -/
lemma iterRemove_render {L : List DivAtom} (hwf : wfAtoms L = true) :
    ∀ n, n ≤ clsCount L →
    ∃ M, wfAtoms M = true ∧ iterRemove n (renderAtoms L) = renderAtoms M
      ∧ clsCount M + n = clsCount L ∧ opnCount M = opnCount L := by
  intro n
  induction n generalizing L with
  | zero => intro _; exact ⟨L, hwf, rfl, rfl, rfl⟩
  | succ k ih =>
    intro hk
    obtain ⟨M1, h1wf, h1eq, h1c, h1o⟩ := removeLastCloser_render hwf (by omega)
    obtain ⟨M2, h2wf, h2eq, h2c, h2o⟩ := ih h1wf (by omega)
    refine ⟨M2, h2wf, ?_, by omega, by rw [h2o, h1o]⟩
    show iterRemove k (removeLastCloser (renderAtoms L)) = renderAtoms M2
    rw [h1eq, h2eq]

/-- Build a well-formed text token from its character property. -/
lemma txt_ok_of_mem {t : List Char} (h : ∀ c ∈ t, ¬ c = '<') : atomOKb (.txt t) = true :=
  List.all_eq_true.2 fun c hc => by simpa using h c hc

/-- Build a well-formed opening token from its character property. -/
lemma opn_ok_of_mem {t : List Char} (h : ∀ c ∈ t, ¬ c = '<' ∧ ¬ c = '>') :
    atomOKb (.opn t) = true :=
  List.all_eq_true.2 fun c hc => by
    simp only [Bool.and_eq_true, Bool.not_eq_true', beq_eq_false_iff_ne, ne_eq]
    exact h c hc

/-- One non-whitespace character passes through run collapsing and resets
the run state. -/
lemma collapse_nonws_cons {c : Char} (hc : isWsC c = false) (b : Bool) (x : List Char) :
    collapseRunsGo ' ' b (c :: x) = c :: collapseRunsGo ' ' false x := by
  rw [collapseRunsGo, hc]
  simp

/-- Run collapsing maps a chunk whose characters satisfy a property also
satisfied by the space character to such a chunk, handing the run state on. -/
lemma collapse_chunk {p : Char → Prop} (hp : p ' ') :
    ∀ (t : List Char), (∀ c ∈ t, p c) → ∀ (x : List Char) (b : Bool),
    ∃ t2 b2, collapseRunsGo ' ' b (t ++ x) = t2 ++ collapseRunsGo ' ' b2 x ∧ ∀ c ∈ t2, p c := by
  intro t
  induction t with
  | nil =>
    intro _ x b
    exact ⟨[], b, rfl, by intro c hc; cases hc⟩
  | cons c t2 ih =>
    intro h x b
    by_cases hw : isWsC c = true
    · cases b with
      | true =>
        obtain ⟨t3, b3, heq, hp3⟩ := ih (fun d hd => h d (List.mem_cons_of_mem _ hd)) x true
        refine ⟨t3, b3, ?_, hp3⟩
        rw [List.cons_append, collapseRunsGo, hw]
        simpa using heq
      | false =>
        obtain ⟨t3, b3, heq, hp3⟩ := ih (fun d hd => h d (List.mem_cons_of_mem _ hd)) x true
        refine ⟨' ' :: t3, b3, ?_, ?_⟩
        · rw [List.cons_append, collapseRunsGo, hw]
          simpa using heq
        · intro d hd
          rcases List.mem_cons.1 hd with h1 | h1
          · exact h1 ▸ hp
          · exact hp3 d h1
    · obtain ⟨t3, b3, heq, hp3⟩ := ih (fun d hd => h d (List.mem_cons_of_mem _ hd)) x false
      have hw2 : isWsC c = false := Bool.not_eq_true _ ▸ hw
      refine ⟨c :: t3, b3, ?_, ?_⟩
      · rw [List.cons_append, collapse_nonws_cons hw2, heq]
        rfl
      · intro d hd
        rcases List.mem_cons.1 hd with h1 | h1
        · exact h1 ▸ h c (List.mem_cons_self _ _)
        · exact hp3 d h1

/-- Run collapsing of rendered well-formed tokens renders a token list with
the same opener and closer counts. -/
lemma collapse_render : ∀ (L : List DivAtom), wfAtoms L = true → ∀ b : Bool,
    ∃ M, wfAtoms M = true ∧ collapseRunsGo ' ' b (renderAtoms L) = renderAtoms M
      ∧ clsCount M = clsCount L ∧ opnCount M = opnCount L := by
  intro L
  induction L with
  | nil => intro _ b; exact ⟨[], rfl, rfl, rfl, rfl⟩
  | cons a r ih =>
    intro hwf b
    obtain ⟨ha, hr⟩ := wf_cons hwf
    cases a with
    | txt t =>
      obtain ⟨t2, b2, heq, hp⟩ :=
        collapse_chunk (p := fun c => ¬ c = '<') (by decide) t (txt_ok_mem ha) (renderAtoms r) b
      obtain ⟨M, hMwf, hMeq, hMc, hMo⟩ := ih hr b2
      refine ⟨DivAtom.txt t2 :: M, ?_, ?_, ?_, ?_⟩
      · simpa [wfAtoms] using ⟨txt_ok_of_mem hp, by simpa [wfAtoms] using hMwf⟩
      · rw [renderAtoms, renderAtom, heq, hMeq]
        rfl
      · show clsCount M = clsCount r
        exact hMc
      · show opnCount M = opnCount r
        exact hMo
    | opn t =>
      obtain ⟨t2, b2, heq, hp⟩ :=
        collapse_chunk (p := fun c => ¬ c = '<' ∧ ¬ c = '>') (by decide) t (opn_ok_mem ha)
          ('>' :: renderAtoms r) false
      obtain ⟨M, hMwf, hMeq, hMc, hMo⟩ := ih hr false
      refine ⟨DivAtom.opn t2 :: M, ?_, ?_, ?_, ?_⟩
      · simpa [wfAtoms] using ⟨opn_ok_of_mem hp, by simpa [wfAtoms] using hMwf⟩
      · have hshape : renderAtoms (DivAtom.opn t :: r)
            = '<' :: 'd' :: 'i' :: 'v' :: (t ++ ('>' :: renderAtoms r)) := by
          simp [renderAtoms, renderAtom]
        rw [hshape, collapse_nonws_cons (by decide), collapse_nonws_cons (by decide),
            collapse_nonws_cons (by decide), collapse_nonws_cons (by decide), heq,
            collapse_nonws_cons (by decide), hMeq]
        simp [renderAtoms, renderAtom]
      · show clsCount M = clsCount r
        exact hMc
      · show 1 + opnCount M = 1 + opnCount r
        rw [hMo]
    | cls =>
      obtain ⟨M, hMwf, hMeq, hMc, hMo⟩ := ih hr false
      refine ⟨DivAtom.cls :: M, ?_, ?_, ?_, ?_⟩
      · simpa [wfAtoms] using ⟨by rfl, by simpa [wfAtoms] using hMwf⟩
      · have hshape : renderAtoms (DivAtom.cls :: r)
            = '<' :: '/' :: 'd' :: 'i' :: 'v' :: '>' :: renderAtoms r := by
          simp [renderAtoms, renderAtom, closePat]
        rw [hshape, collapse_nonws_cons (by decide), collapse_nonws_cons (by decide),
            collapse_nonws_cons (by decide), collapse_nonws_cons (by decide),
            collapse_nonws_cons (by decide), collapse_nonws_cons (by decide), hMeq]
        simp [renderAtoms, renderAtom, closePat]
      · show 1 + clsCount M = 1 + clsCount r
        rw [hMc]
      · show opnCount M = opnCount r
        exact hMo

/-- A whitespace character is not `<`. -/
lemma ws_not_lt {c : Char} (h : isWsC c = true) : ¬ c = '<' := by
  intro he
  subst he
  exact absurd h (by decide)

/-- Anchored matching of a whitespace-free pattern ignores an all-whitespace
suffix. -/
lemma startsWith_append_ws {w : List Char} (hw : ∀ c ∈ w, isWsC c = true) :
    ∀ (p y : List Char), (∀ c ∈ p, isWsC c = false) → startsWithL p (y ++ w) = startsWithL p y := by
  intro p
  induction p with
  | nil => intro y _; rfl
  | cons a ps ih =>
    intro y hp
    cases y with
    | nil =>
      show startsWithL (a :: ps) w = startsWithL (a :: ps) []
      cases w with
      | nil => rfl
      | cons d w2 =>
        have had : (a == d) = false := by
          have h1 := hp a (List.mem_cons_self _ _)
          have h2 := hw d (List.mem_cons_self _ _)
          rw [beq_eq_false_iff_ne]
          intro he
          rw [he, h2] at h1
          cases h1
        show (a == d && startsWithL ps w2) = false
        rw [had]
        exact Bool.false_and _
    | cons c y2 =>
      show (a == c && startsWithL ps (y2 ++ w)) = (a == c && startsWithL ps y2)
      rw [ih y2 (fun u hu => hp u (List.mem_cons_of_mem _ hu))]

/-- No `>` in all-whitespace text. -/
lemma findGtIdx_ws_none {w : List Char} (hw : ∀ c ∈ w, isWsC c = true) :
    findGtIdx w = none := by
  induction w with
  | nil => rfl
  | cons c w2 ih =>
    rw [findGtIdx]
    have hc : (c == '>') = false := by
      rw [beq_eq_false_iff_ne]
      intro he
      have := hw c (List.mem_cons_self _ _)
      rw [he] at this
      exact absurd this (by decide)
    rw [hc]
    simp only [Bool.false_eq_true, if_false, ih (fun d hd => hw d (List.mem_cons_of_mem _ hd))]
    rfl

/-- The first-`>` search ignores an all-whitespace suffix. -/
lemma findGtIdx_append_ws {w : List Char} (hw : ∀ c ∈ w, isWsC c = true) (u : List Char) :
    findGtIdx (u ++ w) = findGtIdx u := by
  induction u with
  | nil => exact findGtIdx_ws_none hw
  | cons c u2 ih =>
    rw [List.cons_append, findGtIdx, findGtIdx, ih]

/-- The closer counter finds nothing in all-whitespace text. -/
lemma countCloseGo_ws_zero {w : List Char} (hw : ∀ c ∈ w, isWsC c = true) :
    ∀ skip, countCloseGo skip w = 0 := by
  induction w with
  | nil => intro skip; cases skip <;> rfl
  | cons c w2 ih =>
    intro skip
    cases skip with
    | succ k => exact ih (fun d hd => hw d (List.mem_cons_of_mem _ hd)) k
    | zero =>
      rw [countCloseGo, startsWith_closePat_cons_false (ws_not_lt (hw c (List.mem_cons_self _ _)))]
      simp only [Bool.false_eq_true, if_false]
      exact ih (fun d hd => hw d (List.mem_cons_of_mem _ hd)) 0

/-- The opener counter finds nothing in all-whitespace text. -/
lemma countOpensGo_ws_zero {w : List Char} (hw : ∀ c ∈ w, isWsC c = true) :
    ∀ skip, countOpensGo skip w = 0 := by
  induction w with
  | nil => intro skip; cases skip <;> rfl
  | cons c w2 ih =>
    intro skip
    cases skip with
    | succ k => exact ih (fun d hd => hw d (List.mem_cons_of_mem _ hd)) k
    | zero =>
      rw [countOpensGo, startsWith_openPfx_cons_false (ws_not_lt (hw c (List.mem_cons_self _ _)))]
      simp only [Bool.false_eq_true, if_false]
      exact ih (fun d hd => hw d (List.mem_cons_of_mem _ hd)) 0

/-- The closer counter ignores an all-whitespace suffix. -/
lemma countCloseGo_append_ws {w : List Char} (hw : ∀ c ∈ w, isWsC c = true) :
    ∀ (x : List Char) (skip : Nat), countCloseGo skip (x ++ w) = countCloseGo skip x := by
  intro x
  induction x with
  | nil =>
    intro skip
    rw [List.nil_append, countCloseGo_ws_zero hw skip]
    cases skip <;> rfl
  | cons c x2 ih =>
    intro skip
    cases skip with
    | succ k => exact ih k
    | zero =>
      rw [List.cons_append, countCloseGo, countCloseGo]
      have hs : startsWithL closePat (c :: (x2 ++ w)) = startsWithL closePat (c :: x2) := by
        have := startsWith_append_ws hw closePat (c :: x2) (by decide)
        simpa using this
      rw [hs]
      by_cases hb : startsWithL closePat (c :: x2) = true
      · rw [if_pos hb, if_pos hb, ih 5]
      · rw [if_neg hb, if_neg hb, ih 0]

/-- The opener counter ignores an all-whitespace suffix. -/
lemma countOpensGo_append_ws {w : List Char} (hw : ∀ c ∈ w, isWsC c = true) :
    ∀ (x : List Char) (skip : Nat), countOpensGo skip (x ++ w) = countOpensGo skip x := by
  intro x
  induction x with
  | nil =>
    intro skip
    rw [List.nil_append, countOpensGo_ws_zero hw skip]
    cases skip <;> rfl
  | cons c x2 ih =>
    intro skip
    cases skip with
    | succ k => exact ih k
    | zero =>
      rw [List.cons_append, countOpensGo, countOpensGo]
      have hs : startsWithL openPfx (c :: (x2 ++ w)) = startsWithL openPfx (c :: x2) := by
        have := startsWith_append_ws hw openPfx (c :: x2) (by decide)
        simpa using this
      rw [hs]
      by_cases hb : startsWithL openPfx (c :: x2) = true
      · rw [if_pos hb, if_pos hb]
        obtain ⟨hc, x3, hx2⟩ := startsWith_openPfx_shape hb
        subst hx2
        have hd1 : ('d' :: 'i' :: 'v' :: x3 ++ w).drop 3 = x3 ++ w := rfl
        have hd2 : ('d' :: 'i' :: 'v' :: x3 : List Char).drop 3 = x3 := rfl
        rw [hd1, hd2, findGtIdx_append_ws hw x3]
        cases h3 : findGtIdx x3 with
        | some k =>
          show 1 + countOpensGo (3 + k + 1) ('d' :: 'i' :: 'v' :: x3 ++ w)
              = 1 + countOpensGo (3 + k + 1) ('d' :: 'i' :: 'v' :: x3)
          have := ih (3 + k + 1)
          simpa using this
        | none =>
          show countOpensGo 0 ('d' :: 'i' :: 'v' :: x3 ++ w)
              = countOpensGo 0 ('d' :: 'i' :: 'v' :: x3)
          have := ih 0
          simpa using this
      · rw [if_neg hb, if_neg hb, ih 0]

/-- Final `strip()` changes neither tag count. -/
lemma counts_stripWs (x : List Char) :
    countCloseGo 0 (stripWsL x) = countCloseGo 0 x
    ∧ countOpensGo 0 (stripWsL x) = countOpensGo 0 x := by
  have hpre : ∀ c ∈ x.takeWhile isWsC, ¬ c = '<' :=
    fun c hc => ws_not_lt (List.mem_takeWhile_imp hc)
  have hx : x.takeWhile isWsC ++ x.dropWhile isWsC = x := List.takeWhile_append_dropWhile _ _
  have hwtail : ∀ c ∈ ((x.dropWhile isWsC).reverse.takeWhile isWsC).reverse, isWsC c = true :=
    fun c hc => List.mem_takeWhile_imp (List.mem_reverse.1 hc)
  have hu : x.dropWhile isWsC
      = stripWsL x ++ ((x.dropWhile isWsC).reverse.takeWhile isWsC).reverse := by
    rw [stripWsL]
    conv_lhs => rw [← List.reverse_reverse (x.dropWhile isWsC),
      ← List.takeWhile_append_dropWhile isWsC (x.dropWhile isWsC).reverse]
    rw [List.reverse_append]
  constructor
  · calc countCloseGo 0 (stripWsL x)
        = countCloseGo 0 (stripWsL x ++ ((x.dropWhile isWsC).reverse.takeWhile isWsC).reverse) :=
          (countCloseGo_append_ws hwtail _ 0).symm
      _ = countCloseGo 0 (x.dropWhile isWsC) := by rw [← hu]
      _ = countCloseGo 0 (x.takeWhile isWsC ++ x.dropWhile isWsC) :=
          (countCloseGo_txt hpre _).symm
      _ = countCloseGo 0 x := by rw [hx]
  · calc countOpensGo 0 (stripWsL x)
        = countOpensGo 0 (stripWsL x ++ ((x.dropWhile isWsC).reverse.takeWhile isWsC).reverse) :=
          (countOpensGo_append_ws hwtail _ 0).symm
      _ = countOpensGo 0 (x.dropWhile isWsC) := by rw [← hu]
      _ = countOpensGo 0 (x.takeWhile isWsC ++ x.dropWhile isWsC) :=
          (countOpensGo_txt hpre _).symm
      _ = countOpensGo 0 x := by rw [hx]

/-- The five wrapper-stripping passes on rendered well-formed tokens render
a well-formed token list with the same closer count. -/
lemma stripAllMarkers_render {L : List DivAtom} (hwf : wfAtoms L = true) :
    ∃ M, wfAtoms M = true ∧ stripAllMarkers (renderAtoms L) = renderAtoms M
      ∧ clsCount M = clsCount L := by
  refine ⟨stripAtoms markerClassValue (stripAtoms markerDecoded (stripAtoms markerElementMain
    (stripAtoms markerAppearance (stripAtoms markerContentType L)))), ?_, ?_, ?_⟩
  · exact stripAtoms_wf (stripAtoms_wf (stripAtoms_wf (stripAtoms_wf (stripAtoms_wf hwf))))
  · rw [stripAllMarkers, stripTagGo_render hwf, stripTagGo_render (stripAtoms_wf hwf),
      stripTagGo_render (stripAtoms_wf (stripAtoms_wf hwf)),
      stripTagGo_render (stripAtoms_wf (stripAtoms_wf (stripAtoms_wf hwf))),
      stripTagGo_render (stripAtoms_wf (stripAtoms_wf (stripAtoms_wf (stripAtoms_wf hwf))))]
  · rw [stripAtoms_cls, stripAtoms_cls, stripAtoms_cls, stripAtoms_cls, stripAtoms_cls]

/-- The rebalancing step on rendered well-formed tokens leaves no closer
surplus. -/
lemma rebalance_render {L : List DivAtom} (hwf : wfAtoms L = true) :
    ∃ M, wfAtoms M = true ∧ rebalance (renderAtoms L) = renderAtoms M
      ∧ clsCount M ≤ opnCount M := by
  rw [rebalance, countClose_render hwf, countOpens_render hwf]
  by_cases h : opnCount L < clsCount L
  · rw [if_pos h]
    obtain ⟨M, hMwf, hMeq, hMc, hMo⟩ := iterRemove_render hwf (clsCount L - opnCount L) (by omega)
    exact ⟨M, hMwf, hMeq, by omega⟩
  · rw [if_neg h]
    exact ⟨L, hwf, rfl, by omega⟩

/-- C2 (amended): for every HTML fragment that is a concatenation of
well-formed tokens — text chunks without '<', opening tags
`<div` + attributes + `>` with neither '<' nor '>' inside, and literal
`</div>` closers — the Fragment Repair output has at most as many closing
block tags as opening block tags.  (The counterexample shows the restriction
is necessary: a deletion may otherwise glue a fresh tag together.) -/
theorem repair_close_le_open_amended (L : List DivAtom) (hwf : wfAtoms L = true) :
    countCloseGo 0 (repairDescription (renderAtoms L))
      ≤ countOpensGo 0 (repairDescription (renderAtoms L)) := by
  rw [repairDescription]
  by_cases he : (renderAtoms L).isEmpty = true
  · rw [if_pos he]
    have hnil : renderAtoms L = [] := by
      cases hx : renderAtoms L with
      | nil => rfl
      | cons c rest => rw [hx] at he; cases he
    rw [hnil]
    exact Nat.le_refl 0
  · rw [if_neg he]
    obtain ⟨M1, h1wf, h1eq, _⟩ := stripAllMarkers_render hwf
    obtain ⟨M2, h2wf, h2eq, h2le⟩ := rebalance_render h1wf
    obtain ⟨M3, h3wf, h3eq, h3c, h3o⟩ := collapse_render M2 h2wf false
    rw [h1eq, h2eq, h3eq]
    obtain ⟨hcs, hos⟩ := counts_stripWs (renderAtoms M3)
    rw [hcs, hos, countClose_render h3wf, countOpens_render h3wf, h3c, h3o]
    exact h2le

/-- Witness for C2's amended theorem on the concrete well-formed fragment
`a <div class="x">b</div></div>`: the surplus closer is removed and the
output is balanced. -/
theorem repair_close_le_open_amended_witness :
    wfAtoms [DivAtom.txt "a ".data, DivAtom.opn " class=\"x\"".data, DivAtom.txt "b".data,
        DivAtom.cls, DivAtom.cls] = true
    ∧ countCloseGo 0 (repairDescription (renderAtoms [DivAtom.txt "a ".data,
        DivAtom.opn " class=\"x\"".data, DivAtom.txt "b".data, DivAtom.cls, DivAtom.cls]))
      ≤ countOpensGo 0 (repairDescription (renderAtoms [DivAtom.txt "a ".data,
        DivAtom.opn " class=\"x\"".data, DivAtom.txt "b".data, DivAtom.cls, DivAtom.cls])) :=
  ⟨by decide, repair_close_le_open_amended _ (by decide)⟩

/-! ## The record dictionary

The scraped record is a Python dict; it is embedded as an insertion-ordered
association list.  `dset` is item assignment (overwrite in place or append),
`dget` is lookup.  Iterating the list models iterating the dict: keys in
first-insertion order with their latest values, which is exactly Python's
dict order, so `data.update(other)` is a left fold of `dset` over `other`. -/

/-- Dict item assignment `d[k] = v`. -/
def dset : List (String × String) → String → String → List (String × String)
  | [], k, v => [(k, v)]
  | (k2, v2) :: rest, k, v =>
    if k2 = k then (k, v) :: rest else (k2, v2) :: dset rest k v

/-- Dict lookup `d[k]` (as an `Option`). -/
def dget (d : List (String × String)) (k : String) : Option String :=
  (d.find? (fun kv => kv.1 == k)).map (fun kv => kv.2)

/-- Model of `d.update(entries)`. -/
def dupdate (d : List (String × String)) (entries : List (String × String)) :
    List (String × String) :=
  entries.foldl (fun acc kv => dset acc kv.1 kv.2) d

/-- Reading the key just assigned. -/
lemma dget_dset_same (d : List (String × String)) (k v : String) :
    dget (dset d k v) k = some v := by
  induction d with
  | nil => simp [dset, dget, List.find?]
  | cons kv rest ih =>
    obtain ⟨k2, v2⟩ := kv
    by_cases h : k2 = k
    · rw [dset, if_pos h]
      simp [dget, List.find?]
    · rw [dset, if_neg h]
      rw [dget, List.find?]
      have : (k2 == k) = false := by
        rw [beq_eq_false_iff_ne]; exact h
      rw [this]
      exact ih

/-- Assignment to a different key does not change a lookup. -/
lemma dget_dset_ne {k2 k : String} (h : ¬ k2 = k) (d : List (String × String)) (v : String) :
    dget (dset d k2 v) k = dget d k := by
  induction d with
  | nil =>
    simp only [dset, dget, List.find?]
    have : (k2 == k) = false := by rw [beq_eq_false_iff_ne]; exact h
    rw [this]
  | cons kv rest ih =>
    obtain ⟨k3, v3⟩ := kv
    by_cases h3 : k3 = k2
    · rw [dset, if_pos h3]
      subst h3
      rw [dget, dget, List.find?, List.find?]
      have : (k3 == k) = false := by rw [beq_eq_false_iff_ne]; exact h
      rw [this]
    · rw [dset, if_neg h3]
      rw [dget, dget, List.find?, List.find?]
      cases h4 : (k3 == k) with
      | true => rfl
      | false => exact ih

/-- Membership after an assignment. -/
lemma mem_dset {kv : String × String} {d : List (String × String)} {k v : String}
    (h : kv ∈ dset d k v) : kv = (k, v) ∨ kv ∈ d := by
  induction d with
  | nil =>
    rw [dset] at h
    rcases List.mem_singleton.1 h with h1
    exact Or.inl h1
  | cons kv2 rest ih =>
    obtain ⟨k2, v2⟩ := kv2
    by_cases h2 : k2 = k
    · rw [dset, if_pos h2] at h
      rcases List.mem_cons.1 h with h1 | h1
      · exact Or.inl h1
      · exact Or.inr (List.mem_cons_of_mem _ h1)
    · rw [dset, if_neg h2] at h
      rcases List.mem_cons.1 h with h1 | h1
      · exact Or.inr (h1 ▸ List.mem_cons_self _ _)
      · rcases ih h1 with h5 | h5
        · exact Or.inl h5
        · exact Or.inr (List.mem_cons_of_mem _ h5)

/-- Updating with entries whose keys all differ from `k` does not change the
lookup of `k`. -/
lemma dget_dupdate_ne {k : String} {entries : List (String × String)}
    (h : ∀ kv ∈ entries, ¬ kv.1 = k) (d : List (String × String)) :
    dget (dupdate d entries) k = dget d k := by
  induction entries generalizing d with
  | nil => rfl
  | cons kv rest ih =>
    rw [dupdate, List.foldl_cons]
    have h1 := ih (fun e he => h e (List.mem_cons_of_mem _ he)) (dset d kv.1 kv.2)
    rw [dupdate] at h1
    rw [h1, dget_dset_ne (h kv (List.mem_cons_self _ _)) d]

/-! ## Specification Table Parser (`extract_specifications_table`,
source lines 508–537)

The table-finding cascade (`find('table', id=...)`, then the two class
fallbacks) is an external document query; the `Doc` supplies the rows of the
found table (an empty list when no table matched).  Each row's `th.col label`
and `td.col data` cell texts are `Option String`s; `if header and data:`
requires both cells to be present (a found tag is truthy even with empty
text). -/

/-- One table row: the label cell's text and the value cell's text, when the
cells exist. -/
structure SpecRow where
  header : Option String
  cell : Option String

/-- The insertion decision for one row: both cells present, canonical key
truthy (`clean_key and value`), raw value non-empty; the stored value is the
measurement-normalized cell text. -/
def rowEntry (r : SpecRow) : Option (String × String) :=
  match r.header, r.cell with
  | some k, some v =>
    match clean_column_name k with
    | some ck => if ck = "" then none else if v = "" then none
                 else some (ck, convert_measurements v)
    | none => none
  | _, _ => none

/-- The row loop: thread the specs dict and the process-wide key union. -/
def specTableGo : List SpecRow → List (String × String) → List String →
    List (String × String) × List String
  | [], specs, cols => (specs, cols)
  | r :: rest, specs, cols =>
    match rowEntry r with
    | some (k, v) => specTableGo rest (dset specs k v) (cols ++ [k])
    | none => specTableGo rest specs cols

/-- Embedding of `extract_specifications_table` (source lines 508–537):
returns the page's specification dict and the keys added to the process-wide
union `all_spec_columns`. -/
def extract_specifications_table (rows : List SpecRow) :
    List (String × String) × List String :=
  specTableGo rows [] []

/-- First-occurrence replacement with a non-empty replacement keeps a
non-empty string non-empty. -/
lemma replaceFirstL_ne_nil {old new s : List Char} (hs : s ≠ []) (hn : new ≠ []) :
    replaceFirstL old new s ≠ [] := by
  cases s with
  | nil => exact absurd rfl hs
  | cons c rest =>
    rw [replaceFirstL]
    by_cases hb : startsWithL old (c :: rest) = true
    · rw [if_pos hb]
      intro he
      exact hn (List.append_eq_nil.1 he).1
    · rw [if_neg hb]
      exact List.cons_ne_nil _ _

/-- The replacement loop keeps a non-empty string non-empty when every
replacement text is non-empty. -/
lemma applyRepl_ne_nil {conv : PyNum → List Char} (hconv : ∀ q, conv q ≠ [])
    (ms : List (List Char × PyNum)) {s : List Char} (hs : s ≠ []) :
    applyRepl conv ms s ≠ [] := by
  induction ms generalizing s with
  | nil => exact hs
  | cons m rest ih =>
    obtain ⟨w, q⟩ := m
    exact ih (replaceFirstL_ne_nil hs (hconv q))

/-- Each metric replacement text is non-empty (it ends in a unit suffix). -/
lemma inchRepl_ne_nil (q : PyNum) : inchRepl q ≠ [] := by
  rw [inchRepl]
  intro he
  have := (List.append_eq_nil.1 he).2
  exact absurd this (by decide)

/-- Each foot replacement text is non-empty. -/
lemma footRepl_ne_nil (q : PyNum) : footRepl q ≠ [] := by
  rw [footRepl]
  intro he
  have := (List.append_eq_nil.1 he).2
  exact absurd this (by decide)

/-- Each weight replacement text is non-empty. -/
lemma poundRepl_ne_nil (q : PyNum) : poundRepl q ≠ [] := by
  rw [poundRepl]
  intro he
  have := (List.append_eq_nil.1 he).2
  exact absurd this (by decide)

/-- Measurement normalization never turns a non-empty string empty. -/
lemma convert_measurements_ne_empty {s : String} (hs : s ≠ "") :
    convert_measurements s ≠ "" := by
  rw [convert_measurements, if_neg hs]
  intro he
  have hdata : (convFamily poundUnit poundRepl
      (convFamily footUnit footRepl
        (convFamily inchUnitB inchRepl
          (convFamily inchUnitA inchRepl s.data)))) = [] := by
    have := congrArg String.data he
    simpa using this
  have hsd : s.data ≠ [] := by
    intro hd
    apply hs
    cases s with
    | mk l => simp at hd; rw [hd]
  exact applyRepl_ne_nil poundRepl_ne_nil _
    (applyRepl_ne_nil footRepl_ne_nil _
      (applyRepl_ne_nil inchRepl_ne_nil _
        (applyRepl_ne_nil inchRepl_ne_nil _ hsd))) hdata

/-- A successful row entry has a truthy key and a non-empty normalized
value. -/
lemma rowEntry_props {r : SpecRow} {k v : String} (h : rowEntry r = some (k, v)) :
    ¬ k = "" ∧ ¬ v = "" := by
  rw [rowEntry] at h
  split at h
  · split at h
    · split at h
      · exact absurd h (by simp)
      · split at h
        · exact absurd h (by simp)
        · next hck hval =>
          simp only [Option.some_inj, Prod.mk.injEq] at h
          obtain ⟨hk, hv⟩ := h
          subst hk
          subst hv
          exact ⟨hck, convert_measurements_ne_empty hval⟩
    · exact absurd h (by simp)
  · exact absurd h (by simp)

/-- Every stored pair of the row loop has a truthy key and non-empty
normalized value. -/
lemma specTableGo_props (rows : List SpecRow) :
    ∀ specs cols, (∀ kv ∈ specs, ¬ kv.1 = "" ∧ ¬ kv.2 = "") →
    ∀ kv ∈ (specTableGo rows specs cols).1, ¬ kv.1 = "" ∧ ¬ kv.2 = "" := by
  induction rows with
  | nil => intro specs cols h kv hkv; exact h kv hkv
  | cons r rest ih =>
    intro specs cols h
    cases hre : rowEntry r with
    | none =>
      rw [specTableGo, hre]
      exact ih specs cols h
    | some e =>
      obtain ⟨k2, v2⟩ := e
      rw [specTableGo, hre]
      refine ih (dset specs k2 v2) (cols ++ [k2]) ?_
      intro kv hkv
      rcases mem_dset hkv with h1 | h1
      · rw [h1]
        exact rowEntry_props hre
      · exact h kv h1

/-- Last-write-wins for the row loop: the final value of a key is the value
of the last row that produced it. -/
lemma specTableGo_lastwins (rows : List SpecRow) :
    ∀ specs cols k,
    dget (specTableGo rows specs cols).1 k
      = (match ((rows.filterMap rowEntry).filter (fun e => e.1 == k)).getLast? with
        | some e => some e.2
        | none => dget specs k) := by
  induction rows with
  | nil => intro specs cols k; rfl
  | cons r rest ih =>
    intro specs cols k
    cases hre : rowEntry r with
    | none =>
      rw [specTableGo, hre, ih specs cols k, List.filterMap_cons, hre]
    | some e =>
      obtain ⟨k2, v2⟩ := e
      rw [specTableGo, hre, ih (dset specs k2 v2) (cols ++ [k2]) k,
        List.filterMap_cons, hre]
      by_cases hk2 : (k2 == k) = true
      · rw [List.filter_cons, if_pos (by simpa using hk2)]
        have hkk : k2 = k := by simpa using hk2
        cases hF : ((rest.filterMap rowEntry).filter (fun e => e.1 == k)) with
        | nil =>
          show dget (dset specs k2 v2) k = some v2
          rw [hkk, dget_dset_same]
        | cons b F2 =>
          rw [List.getLast?_cons_cons]
          cases hgl : (b :: F2).getLast? with
          | none =>
            rw [List.getLast?_eq_none_iff] at hgl
            cases hgl
          | some e2 => rfl
      · rw [List.filter_cons, if_neg (by simpa using hk2)]
        have hne : ¬ k2 = k := by simpa using hk2
        cases hgl : ((rest.filterMap rowEntry).filter (fun e => e.1 == k)).getLast? with
        | none =>
          show dget (dset specs k2 v2) k = dget specs k
          exact dget_dset_ne hne specs v2
        | some e2 => rfl

/-- Every key stored by the row loop is added to the process-wide key
union. -/
lemma specTableGo_keys (rows : List SpecRow) :
    ∀ specs cols, (∀ kv ∈ specs, kv.1 ∈ cols) →
    ∀ kv ∈ (specTableGo rows specs cols).1, kv.1 ∈ (specTableGo rows specs cols).2 := by
  induction rows with
  | nil => intro specs cols h kv hkv; exact h kv hkv
  | cons r rest ih =>
    intro specs cols h
    cases hre : rowEntry r with
    | none =>
      rw [specTableGo, hre]
      exact ih specs cols h
    | some e =>
      obtain ⟨k2, v2⟩ := e
      rw [specTableGo, hre]
      refine ih (dset specs k2 v2) (cols ++ [k2]) ?_
      intro kv hkv
      rcases mem_dset hkv with h1 | h1
      · rw [h1]
        exact List.mem_append.2 (Or.inr (List.mem_singleton.2 rfl))
      · exact List.mem_append.2 (Or.inl (h kv h1))

/-- C7: the Specification Table Parser stores a row only when both the
canonical key and the normalized value are non-empty; a key produced by
several rows of the table ends with the LAST such row's normalized value
(last-write-wins); and every stored key is added to the process-wide
specification-key union. -/
theorem spec_table_insert_policy (rows : List SpecRow) :
    (∀ kv ∈ (extract_specifications_table rows).1, ¬ kv.1 = "" ∧ ¬ kv.2 = "")
    ∧ (∀ k, dget (extract_specifications_table rows).1 k
        = (((rows.filterMap rowEntry).filter (fun e => e.1 == k)).getLast?).map
            (fun e => e.2))
    ∧ (∀ kv ∈ (extract_specifications_table rows).1,
        kv.1 ∈ (extract_specifications_table rows).2) := by
  refine ⟨specTableGo_props rows [] [] (by intro kv hkv; cases hkv), ?_, ?_⟩
  · intro k
    rw [extract_specifications_table, specTableGo_lastwins rows [] [] k]
    cases ((rows.filterMap rowEntry).filter (fun e => e.1 == k)).getLast? with
    | none => rfl
    | some e => rfl
  · exact specTableGo_keys rows [] [] (by intro kv hkv; cases hkv)

/-- Witness for C7 on a concrete two-row table with a duplicate "Weight"
label: the later row wins and its key is in the union. -/
theorem spec_table_insert_policy_witness :
    (("weight", "3.18kg") ∈ (extract_specifications_table
        [⟨some "Weight", some "5 lbs"⟩, ⟨some "Weight", some "7 lbs"⟩]).1
      ∧ ¬ ("weight" : String) = "" ∧ ¬ ("3.18kg" : String) = "")
    ∧ dget (extract_specifications_table
        [⟨some "Weight", some "5 lbs"⟩, ⟨some "Weight", some "7 lbs"⟩]).1 "weight"
        = some "3.18kg"
    ∧ ("weight" : String) ∈ (extract_specifications_table
        [⟨some "Weight", some "5 lbs"⟩, ⟨some "Weight", some "7 lbs"⟩]).2 := by
  refine ⟨⟨by decide, ?_⟩, by decide, ?_⟩
  · exact (spec_table_insert_policy
      [⟨some "Weight", some "5 lbs"⟩, ⟨some "Weight", some "7 lbs"⟩]).1
      ("weight", "3.18kg") (by decide)
  · exact (spec_table_insert_policy
      [⟨some "Weight", some "5 lbs"⟩, ⟨some "Weight", some "7 lbs"⟩]).2.2
      ("weight", "3.18kg") (by decide)

/-! ## Record Aggregator (`extract_printer_data`, source lines 563–710)

A parsed page is the record `Doc` of the document-query results the
aggregator asks for: the `<title>` text, the first `<h1>` text, the
description and highlights container contents (`decode_contents`), and the
rows of the specification table found by the table cascade.  The two places
where the source re-parses one of its own computed strings with
BeautifulSoup are explicit capability parameters: `getText` models
`BeautifulSoup(html).get_text()` and `findP` models
`BeautifulSoup(html).find('p')` composed with `get_text()` (`none` when no
paragraph exists).

The stages below mirror the source's sequential dict assignments.  The
phases that write only fixed keys never read by the verified claims
(images, categories, tags, stock, shipping dimensions, SEO, related
products, price — keys `featured_image`, `gallery_images`, `categories`,
`tags`, `stock_status`, `stock_quantity`, `backorders`, `length`, `width`,
`height`, `weight`, `meta_description`, `meta_keywords`, `schema_data`,
`related_products`, `cross_sells`, `price`, `regular_price`) are omitted
from the embedding; none of them touches `model` or `short_description`. -/

/-- A parsed product page, as the query results the aggregator uses. -/
structure Doc where
  title : Option String
  h1 : Option String
  descContents : Option String
  highlightsContents : Option String
  specRows : List SpecRow

/-- Python slicing `s[:n]` (by characters). -/
def pyTake (n : Nat) (s : String) : String :=
  String.mk (s.data.take n)

/-- Python `len(s)` (in characters). -/
def pyLen (s : String) : Nat :=
  s.data.length

/-- Model of `text.split('|')[0]`. -/
def takeBeforePipe (t : String) : String :=
  String.mk (t.data.takeWhile (fun c => !(c == '|')))

/-- The brand keyword table, in source iteration order. -/
def brandsList : List (String × String) :=
  [("alphacard", "AlphaCard"), ("magicard", "Magicard"), ("fargo", "Fargo"),
   ("zebra", "Zebra"), ("evolis", "Evolis"), ("datacard", "Entrust Datacard"),
   ("entrust", "Entrust Datacard"), ("idp", "IDP"), ("swiftcolor", "SwiftColor"),
   ("matica", "Matica")]

/-- Collapse runs of `[-\s]+` to a single dash (for the slug). -/
def collapseDashGo : Bool → List Char → List Char
  | _, [] => []
  | prev, c :: rest =>
    if isWsC c || c == '-' then
      (if prev then collapseDashGo true rest else '-' :: collapseDashGo true rest)
    else c :: collapseDashGo false rest

/-- Embedding of `generate_product_slug` (source lines 446–452):
lower-case `f"{brand} {model}"`, keep word/whitespace/dash characters
(`re.sub(r'[^\w\s-]', '')`), collapse `[-\s]+` runs to single dashes, strip
dashes. -/
def generate_product_slug (model brand : String) : String :=
  String.mk
    ((((collapseDashGo false
        ((pyLowerStr (brand ++ " " ++ model)).data.filter
          (fun c => isWordC c || isWsC c || c == '-'))).dropWhile
      (fun c => c == '-')).reverse.dropWhile (fun c => c == '-')).reverse)

/-- The record as initialized (source lines 569–623): every field at its
documented default. -/
def initData (url nowStr : String) : List (String × String) :=
  [("url", url), ("scraped_date", nowStr), ("brand", ""), ("model", ""),
   ("full_name", ""), ("product_slug", ""),
   ("description", ""), ("short_description", ""), ("highlights", ""),
   ("price", ""), ("regular_price", ""), ("regular_price_aud", ""),
   ("sale_price", ""), ("sale_price_aud", ""),
   ("stock_status", "instock"), ("stock_quantity", ""), ("backorders", "no"),
   ("featured_image", ""), ("gallery_images", ""),
   ("categories", ""), ("tags", ""),
   ("weight", ""), ("length", ""), ("width", ""), ("height", ""),
   ("meta_description", ""), ("meta_keywords", ""), ("schema_data", ""),
   ("related_products", ""), ("cross_sells", ""),
   ("product_type", "simple"), ("visibility", "visible"),
   ("tax_status", "taxable"), ("tax_class", ""),
   ("manage_stock", "yes"), ("featured", "no")]

/-- Stage 1 (source lines 626–628): `full_name` from the title, when a
title tag exists. -/
def dataAfterTitle (nowStr url : String) (doc : Doc) : List (String × String) :=
  match doc.title with
  | some t => dset (initData url nowStr) "full_name" (pyStripWs t)
  | none => initData url nowStr

/-- Stage 2 (source lines 630–634): `model` from the first `<h1>`'s stripped
text; `elif title:` falls back to the title's first '|'-segment only when no
`<h1>` exists at all. -/
def dataAfterModel (nowStr url : String) (doc : Doc) : List (String × String) :=
  match doc.h1 with
  | some h => dset (dataAfterTitle nowStr url doc) "model" (pyStripWs h)
  | none =>
    match doc.title with
    | some t => dset (dataAfterTitle nowStr url doc) "model" (pyStripWs (takeBeforePipe t))
    | none => dataAfterTitle nowStr url doc

/-- The model value stages 2–7 carry (for stating the theorems). -/
def modelValue (doc : Doc) : String :=
  match doc.h1 with
  | some h => pyStripWs h
  | none =>
    match doc.title with
    | some t => pyStripWs (takeBeforePipe t)
    | none => ""

/-- Stage 3 (source lines 636–646): `brand` is the first brand keyword
contained in the lower-cased model. -/
def dataAfterBrand (nowStr url : String) (doc : Doc) : List (String × String) :=
  match brandsList.find? (fun bk =>
      containsSubStr (pyLowerStr ((dget (dataAfterModel nowStr url doc) "model").getD "")) bk.1) with
  | some bk => dset (dataAfterModel nowStr url doc) "brand" bk.2
  | none => dataAfterModel nowStr url doc

/-- Stage 4 (source line 648): the product slug from model and brand. -/
def dataAfterSlug (nowStr url : String) (doc : Doc) : List (String × String) :=
  dset (dataAfterBrand nowStr url doc) "product_slug"
    (generate_product_slug ((dget (dataAfterBrand nowStr url doc) "model").getD "")
      ((dget (dataAfterBrand nowStr url doc) "brand").getD ""))

/-- Stage 5 (source line 650): the repaired description. -/
def dataAfterDesc (nowStr url : String) (doc : Doc) : List (String × String) :=
  dset (dataAfterSlug nowStr url doc) "description"
    (extract_product_description doc.descContents)

/-- Stage 6 (source line 651): the highlights. -/
def dataAfterHighlights (nowStr url : String) (doc : Doc) : List (String × String) :=
  dset (dataAfterDesc nowStr url doc) "highlights"
    (extract_product_highlights doc.highlightsContents)

/-- Stage 7 (source lines 653–660): the short description — from the
highlights' plain text, truncated at 200 characters WITH an ellipsis only
when longer; else from the description's first paragraph, truncated at 200
characters with an ellipsis appended unconditionally. -/
def dataAfterShort (getText : String → String) (findP : String → Option String)
    (nowStr url : String) (doc : Doc) : List (String × String) :=
  if ((dget (dataAfterHighlights nowStr url doc) "highlights").getD "") ≠ "" then
    dset (dataAfterHighlights nowStr url doc) "short_description"
      (if 200 < pyLen (getText ((dget (dataAfterHighlights nowStr url doc) "highlights").getD ""))
       then pyTake 200 (getText ((dget (dataAfterHighlights nowStr url doc) "highlights").getD "")) ++ "..."
       else getText ((dget (dataAfterHighlights nowStr url doc) "highlights").getD ""))
  else if ((dget (dataAfterHighlights nowStr url doc) "description").getD "") ≠ "" then
    match findP ((dget (dataAfterHighlights nowStr url doc) "description").getD "") with
    | some p =>
      dset (dataAfterHighlights nowStr url doc) "short_description" (pyTake 200 p ++ "...")
    | none => dataAfterHighlights nowStr url doc
  else dataAfterHighlights nowStr url doc

/-- Stage 8 (source lines 662–663): `data.update(specifications)` — the
specification dict is merged over the record, overwriting ANY key it shares
with the record, including base fields. -/
def buildData (getText : String → String) (findP : String → Option String)
    (nowStr url : String) (doc : Doc) : List (String × String) :=
  dupdate (dataAfterShort getText findP nowStr url doc)
    (extract_specifications_table doc.specRows).1

/-- Embedding of `extract_printer_data` (source lines 563–710): build the
record, then the acceptance gate `return data if data['model'] else None`. -/
def extract_printer_data (getText : String → String) (findP : String → Option String)
    (nowStr url : String) (doc : Doc) : Option (List (String × String)) :=
  if ((dget (buildData getText findP nowStr url doc) "model").getD "") ≠ "" then
    some (buildData getText findP nowStr url doc)
  else none

/-- The `model` field of an aggregator result. -/
def getModel (r : Option (List (String × String))) : Option String :=
  r.bind (fun d => dget d "model")

/-- The `short_description` field of an aggregator result. -/
def getShortDesc (r : Option (List (String × String))) : Option String :=
  r.bind (fun d => dget d "short_description")

/-- The initialized record's model is empty. -/
lemma dget_initData_model (url nowStr : String) :
    dget (initData url nowStr) "model" = some "" := by
  rfl

/-- Stage 1 leaves the model empty. -/
lemma model_afterTitle (nowStr url : String) (doc : Doc) :
    dget (dataAfterTitle nowStr url doc) "model" = some "" := by
  rw [dataAfterTitle]
  cases doc.title with
  | none => exact dget_initData_model url nowStr
  | some t =>
    rw [dget_dset_ne (by decide) _ _]
    exact dget_initData_model url nowStr

/-- Stage 2 sets the model to `modelValue`. -/
lemma model_afterModel (nowStr url : String) (doc : Doc) :
    dget (dataAfterModel nowStr url doc) "model" = some (modelValue doc) := by
  rw [dataAfterModel, modelValue]
  cases doc.h1 with
  | some h => exact dget_dset_same _ _ _
  | none =>
    cases doc.title with
    | some t => exact dget_dset_same _ _ _
    | none => exact model_afterTitle nowStr url doc

/-- Stages 3–6 do not change the model. -/
lemma model_afterHighlights (nowStr url : String) (doc : Doc) :
    dget (dataAfterHighlights nowStr url doc) "model" = some (modelValue doc) := by
  rw [dataAfterHighlights, dget_dset_ne (by decide) _ _,
      dataAfterDesc, dget_dset_ne (by decide) _ _,
      dataAfterSlug, dget_dset_ne (by decide) _ _,
      dataAfterBrand]
  cases brandsList.find? (fun bk =>
      containsSubStr (pyLowerStr ((dget (dataAfterModel nowStr url doc) "model").getD "")) bk.1) with
  | some bk =>
    rw [dget_dset_ne (by decide) _ _]
    exact model_afterModel nowStr url doc
  | none => exact model_afterModel nowStr url doc

/-- Stage 7 does not change the model. -/
lemma model_afterShort (getText : String → String) (findP : String → Option String)
    (nowStr url : String) (doc : Doc) :
    dget (dataAfterShort getText findP nowStr url doc) "model" = some (modelValue doc) := by
  rw [dataAfterShort]
  by_cases h1 : ((dget (dataAfterHighlights nowStr url doc) "highlights").getD "") ≠ ""
  · rw [if_pos h1, dget_dset_ne (by decide) _ _]
    exact model_afterHighlights nowStr url doc
  · rw [if_neg h1]
    by_cases h2 : ((dget (dataAfterHighlights nowStr url doc) "description").getD "") ≠ ""
    · rw [if_pos h2]
      cases findP ((dget (dataAfterHighlights nowStr url doc) "description").getD "") with
      | some p =>
        rw [dget_dset_ne (by decide) _ _]
        exact model_afterHighlights nowStr url doc
      | none => exact model_afterHighlights nowStr url doc
    · rw [if_neg h2]
      exact model_afterHighlights nowStr url doc

/-- With no specification row producing the key "model", the merged record's
model is `modelValue`. -/
lemma model_buildData {doc : Doc}
    (hnm : ∀ kv ∈ (extract_specifications_table doc.specRows).1, ¬ kv.1 = "model")
    (getText : String → String) (findP : String → Option String) (nowStr url : String) :
    dget (buildData getText findP nowStr url doc) "model" = some (modelValue doc) := by
  rw [buildData, dget_dupdate_ne hnm]
  exact model_afterShort getText findP nowStr url doc

/-- The gate: the aggregator returns null exactly when the final model field
is empty. -/
lemma extract_eq_none_iff (getText : String → String) (findP : String → Option String)
    (nowStr url : String) (doc : Doc) :
    extract_printer_data getText findP nowStr url doc = none
      ↔ ((dget (buildData getText findP nowStr url doc) "model").getD "") = "" := by
  rw [extract_printer_data]
  by_cases h : ((dget (buildData getText findP nowStr url doc) "model").getD "") ≠ ""
  · rw [if_pos h]
    simp [h]
  · rw [if_neg h]
    push_neg at h
    simp [h]

/-- C3 counterexample: a document with no `<h1>` and no title but with a
specification row labelled "Model" yields a record, not null — the
`data.update(specifications)` merge can set the model field.  This refutes
"a document with no h1 heading and no title returns a null record". -/
theorem extract_no_title_spec_model_cex :
    (extract_printer_data (fun s => s) (fun _ => none) "" ""
      ⟨none, none, none, none, [⟨some "Model", some "X100"⟩]⟩).isSome = true := by
  decide

/-- C3 (amended): the aggregator returns null exactly when the final model
field is empty; and provided no specification row canonicalizes to the key
"model": a document with no h1 and no title yields null, and a document with
no h1 but a title yields a record whose model is the stripped first
'|'-segment of the title when that segment is non-empty, and null when the
segment strips to empty. -/
theorem extract_model_gate_policy (getText : String → String)
    (findP : String → Option String) (nowStr url : String) (doc : Doc) :
    (extract_printer_data getText findP nowStr url doc = none
      ↔ ((dget (buildData getText findP nowStr url doc) "model").getD "") = "")
    ∧ ((∀ kv ∈ (extract_specifications_table doc.specRows).1, ¬ kv.1 = "model") →
        doc.h1 = none →
        ((doc.title = none → extract_printer_data getText findP nowStr url doc = none)
          ∧ (∀ t, doc.title = some t →
              (¬ pyStripWs (takeBeforePipe t) = "" →
                getModel (extract_printer_data getText findP nowStr url doc)
                  = some (pyStripWs (takeBeforePipe t)))
              ∧ (pyStripWs (takeBeforePipe t) = "" →
                extract_printer_data getText findP nowStr url doc = none)))) := by
  refine ⟨extract_eq_none_iff getText findP nowStr url doc, ?_⟩
  intro hnm hh1
  have hbd := model_buildData hnm getText findP nowStr url
  constructor
  · intro hti
    have hmv : modelValue doc = "" := by
      rw [modelValue, hh1, hti]
    rw [extract_eq_none_iff, hbd, hmv]
    rfl
  · intro t hti
    have hmv : modelValue doc = pyStripWs (takeBeforePipe t) := by
      rw [modelValue, hh1, hti]
    constructor
    · intro hne
      have hgate : ¬ ((dget (buildData getText findP nowStr url doc) "model").getD "") = "" := by
        rw [hbd, hmv]
        exact hne
      rw [getModel, extract_printer_data, if_pos hgate]
      show dget (buildData getText findP nowStr url doc) "model"
          = some (pyStripWs (takeBeforePipe t))
      rw [hbd, hmv]
    · intro heq
      rw [extract_eq_none_iff, hbd, hmv, heq]
      rfl

/-- Witness for C3's amended theorem: a document whose only heading source
is the title "Acme X100 | Printers" yields a record with model "Acme X100". -/
theorem extract_model_gate_policy_witness :
    getModel (extract_printer_data (fun s => s) (fun _ => none) "" ""
        ⟨some "Acme X100 | Printers", none, none, none, []⟩)
      = some (pyStripWs (takeBeforePipe "Acme X100 | Printers"))
    ∧ pyStripWs (takeBeforePipe "Acme X100 | Printers") = "Acme X100" :=
  ⟨(((extract_model_gate_policy (fun s => s) (fun _ => none) "" ""
        ⟨some "Acme X100 | Printers", none, none, none, []⟩).2
      (by intro kv hkv; cases hkv) rfl).2 "Acme X100 | Printers" rfl).1 (by decide),
   by decide⟩

/-- C9 counterexample: a present-but-blank `<h1>` with a non-empty title
does NOT always yield null — a specification row labelled "Model" fills the
model field and a record is returned. -/
theorem extract_blank_h1_spec_model_cex :
    (extract_printer_data (fun s => s) (fun _ => none) "" ""
      ⟨some "Zebra ZC300 | AlphaCard", some "   ", none, none,
        [⟨some "Model", some "ZC300"⟩]⟩).isSome = true := by
  decide

/-- C9 (amended): provided no specification row canonicalizes to the key
"model", a document whose `<h1>` exists but strips to empty text leaves the
model empty and yields null, whatever the title — the title fallback applies
only when no `<h1>` exists at all. -/
theorem extract_blank_h1_null (getText : String → String)
    (findP : String → Option String) (nowStr url : String) (doc : Doc) (h : String)
    (hh1 : doc.h1 = some h) (hblank : pyStripWs h = "")
    (hnm : ∀ kv ∈ (extract_specifications_table doc.specRows).1, ¬ kv.1 = "model") :
    extract_printer_data getText findP nowStr url doc = none := by
  have hmv : modelValue doc = "" := by
    rw [modelValue, hh1]
    exact hblank
  rw [extract_eq_none_iff, model_buildData hnm, hmv]
  rfl

/-- Witness for C9's amended theorem: blank `<h1>` "  ", non-empty title,
no specification rows — the record is null. -/
theorem extract_blank_h1_null_witness :
    extract_printer_data (fun s => s) (fun _ => none) "" ""
      ⟨some "Some Title", some "  ", none, none, []⟩ = none :=
  extract_blank_h1_null (fun s => s) (fun _ => none) "" ""
    ⟨some "Some Title", some "  ", none, none, []⟩ "  " rfl (by decide)
    (by intro kv hkv; cases hkv)

/-- Stage 6 stores the highlights. -/
lemma highlights_afterHighlights (nowStr url : String) (doc : Doc) :
    dget (dataAfterHighlights nowStr url doc) "highlights"
      = some (extract_product_highlights doc.highlightsContents) := by
  rw [dataAfterHighlights]
  exact dget_dset_same _ _ _

/-- Stage 6 still holds the description stored at stage 5. -/
lemma description_afterHighlights (nowStr url : String) (doc : Doc) :
    dget (dataAfterHighlights nowStr url doc) "description"
      = some (extract_product_description doc.descContents) := by
  rw [dataAfterHighlights, dget_dset_ne (by decide) _ _, dataAfterDesc]
  exact dget_dset_same _ _ _

/-- Stage 7, description path: with empty highlights, a non-empty
description and a first paragraph, the short description is the paragraph's
first 200 characters with "..." appended — unconditionally. -/
lemma shortdesc_afterShort_descPath (getText : String → String)
    (findP : String → Option String) (nowStr url : String) (doc : Doc) (p : String)
    (hhl : extract_product_highlights doc.highlightsContents = "")
    (hd : ¬ extract_product_description doc.descContents = "")
    (hfp : findP (extract_product_description doc.descContents) = some p) :
    dget (dataAfterShort getText findP nowStr url doc) "short_description"
      = some (pyTake 200 p ++ "...") := by
  have hv1 : ((dget (dataAfterHighlights nowStr url doc) "highlights").getD "") = "" := by
    rw [highlights_afterHighlights, hhl]
    rfl
  have hv2 : ((dget (dataAfterHighlights nowStr url doc) "description").getD "")
      = extract_product_description doc.descContents := by
    rw [description_afterHighlights]
    rfl
  rw [dataAfterShort, if_neg (fun hc => hc hv1), if_pos (by rw [hv2]; exact hd), hv2, hfp]
  exact dget_dset_same _ _ _

/-- C10 counterexample: with empty highlights and a description whose first
paragraph is "hello", a specification row labelled "Short Description"
overwrites the computed short description during the
`data.update(specifications)` merge, so the field is NOT the paragraph's
first 200 characters plus "...". -/
theorem shortdesc_spec_override_cex :
    getShortDesc (extract_printer_data (fun s => s) (fun _ => some "hello") "" ""
        ⟨none, some "ModelM", some "<p>hello</p>", none,
          [⟨some "Short Description", some "OVERRIDE"⟩]⟩)
      = some "OVERRIDE"
    ∧ ¬ (some "OVERRIDE" : Option String) = some (pyTake 200 "hello" ++ "...") := by
  refine ⟨by decide, by decide⟩

/-- C10 (amended): whenever the record is emitted (here: a non-blank h1),
the highlights are empty, the description is non-empty with a first
paragraph, and no specification row canonicalizes to the key
"short_description" or "model", the short description is the paragraph's first 200
characters with "..." appended even when the paragraph is 200 characters or
shorter — the ellipsis-only-if-longer rule applies only to the
highlights-derived path. -/
theorem shortdesc_desc_path_always_ellipsis (getText : String → String)
    (findP : String → Option String) (nowStr url : String) (doc : Doc) (h p : String)
    (hh1 : doc.h1 = some h) (hne : ¬ pyStripWs h = "")
    (hhl : extract_product_highlights doc.highlightsContents = "")
    (hd : ¬ extract_product_description doc.descContents = "")
    (hfp : findP (extract_product_description doc.descContents) = some p)
    (hns : ∀ kv ∈ (extract_specifications_table doc.specRows).1,
      ¬ kv.1 = "short_description")
    (hnm : ∀ kv ∈ (extract_specifications_table doc.specRows).1, ¬ kv.1 = "model") :
    getShortDesc (extract_printer_data getText findP nowStr url doc)
      = some (pyTake 200 p ++ "...") := by
  have hmv : modelValue doc = pyStripWs h := by
    rw [modelValue, hh1]
  have hsd : dget (buildData getText findP nowStr url doc) "short_description"
      = some (pyTake 200 p ++ "...") := by
    rw [buildData, dget_dupdate_ne hns]
    exact shortdesc_afterShort_descPath getText findP nowStr url doc p hhl hd hfp
  have hgate : ¬ ((dget (buildData getText findP nowStr url doc) "model").getD "") = "" := by
    rw [model_buildData hnm, hmv]
    exact hne
  rw [getShortDesc, extract_printer_data, if_pos hgate]
  show dget (buildData getText findP nowStr url doc) "short_description"
      = some (pyTake 200 p ++ "...")
  exact hsd

/-- Witness for C10's amended theorem: empty highlights, description "hi"
(first paragraph "hi", only 2 characters long), no specification rows — the
short description is "hi...": the "..." is appended even though the
paragraph is far below 200 characters. -/
theorem shortdesc_desc_path_always_ellipsis_witness :
    getShortDesc (extract_printer_data (fun s => s) (fun _ => some "hi") "" ""
        ⟨none, some "ModelX", some "<p>hi</p>", none, []⟩)
      = some (pyTake 200 "hi" ++ "...")
    ∧ pyTake 200 "hi" ++ "..." = "hi..." :=
  ⟨shortdesc_desc_path_always_ellipsis (fun s => s) (fun _ => some "hi") "" ""
      ⟨none, some "ModelX", some "<p>hi</p>", none, []⟩ "ModelX" "hi"
      rfl (by decide) (by decide) (by decide) rfl
      (by intro kv hkv; cases hkv) (by intro kv hkv; cases hkv),
   by decide⟩

end AlphaCard
